import Mathlib

/-!
Verification of the duck-read-cache-fs cache engine.

This file contains a shallow embedding of the core cache code:
  * on-disk cache-file naming and clearing (src/src/disk_cache_reader.cpp),
  * the block-aligned chunk planner and `ReadAndCache` shared by the disk and
    in-memory cache readers (src/src/disk_cache_reader.cpp,
    src/src/in_memory_cache_reader.cpp),
  * the LRU primitives (src/src/utils/include/shared_lru_cache.hpp,
    src/src/utils/include/exclusive_multi_lru_cache.hpp),
  * the cache-filesystem facade's read bounds and file-handle life cycle
    (src/src/cache_filesystem.cpp),
  * small interleaving models for the get-or-create deduplication and for the
    readers' get-then-put sub-request protocol.

Bytes are modelled as `Nat`; machine integers (`idx_t`, `uint64_t`) are
modelled as `Nat` because the quantities involved (offsets bounded by file
size, timestamps, entry counts) never overflow 64 bits in any scenario the
claims quantify over.
-/

namespace DuckCache

/-! ## On-disk cache file naming (src/src/disk_cache_reader.cpp)

The SHA256 hex digest of the remote path is not re-implemented; both
`GetLocalCacheFile` and the clear-cache file filter compute the digest of the
same `remote_file` string, so the digest is passed in as an opaque `shaHex`
string parameter, the same value on both sides. -/

/-- Boolean test that `lead` is a leading segment of `s`; models
`StringUtil::StartsWith` (character-by-character comparison from index 0). -/
def strHasLead : List Char → List Char → Bool
  | [], _ => true
  | _ :: _, [] => false
  | a :: as, b :: bs => a == b && strHasLead as bs

/-- `GetLocalCacheFile` (disk_cache_reader.cpp:71-80): the canonical cache file
path, `StringUtil::Format("%s/%s-%s-%llu-%llu", cache_directory, sha256hex,
basename, start_offset, bytes_to_read)`. -/
def GetLocalCacheFile (cacheDirectory shaHex fname : String)
    (startOffset bytesToRead : Nat) : String :=
  cacheDirectory ++ "/" ++ shaHex ++ "-" ++ fname ++ "-" ++ toString startOffset
    ++ "-" ++ toString bytesToRead

/-- Basename of the canonical cache file (the part after `<dir>/`), which is
what `ListFiles` hands to the clear-cache callback. -/
def localCacheFileBasename (shaHex fname : String) (startOffset bytesToRead : Nat) : String :=
  shaHex ++ "-" ++ fname ++ "-" ++ toString startOffset ++ "-" ++ toString bytesToRead

/-- `GetLocalCacheFilePrefix` (disk_cache_reader.cpp:107-114): the filename
filter used by `DiskCacheReader::ClearCache(fname)`,
`StringUtil::Format("%s.%s", sha256hex, basename)`. -/
def GetLocalCacheFilePfx (shaHex fname : String) : String :=
  shaHex ++ "." ++ fname

/-- `CacheLocal`'s temporary file path (disk_cache_reader.cpp:134):
`StringUtil::Format("%s%s.%s.httpfs_local_cache", cache_directory, fname,
uuid)` — note the format string has no `/` between directory and basename. -/
def localTempCacheFile (cacheDirectory fname uuid : String) : String :=
  cacheDirectory ++ fname ++ "." ++ uuid ++ ".httpfs_local_cache"

/-- Modelled from the spec: the temp-file location the spec prescribes,
`<dir>/<basename>.<random-uuid>.httpfs_local_cache` (spec §4.D.4 step 1). -/
def specTempCacheFile (cacheDirectory fname uuid : String) : String :=
  cacheDirectory ++ "/" ++ fname ++ "." ++ uuid ++ ".httpfs_local_cache"

/-- `DiskCacheReader::ClearCache(fname)` (disk_cache_reader.cpp:295-303) on a
directory listing: every listed file whose name starts with the computed
filter string is removed; the survivors are returned. -/
def clearCacheSurvivors (listing : List String) (shaHex fname : String) : List String :=
  listing.filter (fun cur => ¬ strHasLead (GetLocalCacheFilePfx shaHex fname).data cur.data)

/-! ## Block-aligned chunk planning and `ReadAndCache`

Translated from `DiskCacheReader::ReadAndCache` (disk_cache_reader.cpp:171-287)
and `InMemoryCacheReader::ReadAndCache` (in_memory_cache_reader.cpp:43-146);
the two readers share the planning loop verbatim.  A chunk's
`requested_start_addr` is modelled as the offset `dstOff` of that address
inside the caller's buffer.  The caller's buffer is a function
`Nat → Option Nat` (`none` = byte never written); reading past the end of an
intermediate buffer surfaces as `none` rather than silently producing file
bytes, so the round-trip theorem also certifies that every `memmove` stays in
bounds.  The parallel sub-request dispatch is modelled as a left fold: the
chunks' destination regions and cache keys are disjoint, and the proofs below
never rely on one chunk observing another's cache insertion. -/

/-- `struct CacheReadChunk` (disk_cache_reader.cpp:23-49). -/
structure CacheReadChunk where
  dstOff : Nat
  requested_start_offset : Nat
  aligned_start_offset : Nat
  chunk_size : Nat
  bytes_to_copy : Nat
  deriving Repr, DecidableEq

/-- The planning loop body of `ReadAndCache`: iterates
`io_start_offset = aligned_start, …, aligned_last` in steps of `block_size`,
carrying the mutable `addr_to_write` (as buffer offset `addr`),
`already_read_bytes` (`already`) and `requested_start_offset` (`reqOff`).
`fuel` counts the remaining loop iterations. -/
def planChunksAux (B fs aS aL nr : Nat) :
    Nat → Nat → Nat → Nat → Nat → List CacheReadChunk
  | 0, _, _, _, _ => []
  | fuel + 1, io, addr, already, reqOff =>
    if io = aS ∧ io = aL then
      -- Case-1: sole chunk.
      ⟨addr, reqOff, io, min B (fs - io), nr⟩
        :: planChunksAux B fs aS aL nr fuel (io + B) addr already (io + B)
    else if io = aS then
      -- Case-2: first chunk of many.
      let delta := reqOff - io
      ⟨addr, reqOff, io, B, B - delta⟩
        :: planChunksAux B fs aS aL nr fuel (io + B) (addr + (B - delta))
            (already + (B - delta)) (io + B)
    else if io = aL then
      -- Case-3: last chunk of many.
      ⟨addr, reqOff, io, min B (fs - io), nr - already⟩
        :: planChunksAux B fs aS aL nr fuel (io + B) addr already (io + B)
    else
      -- Case-4: middle chunk.
      ⟨addr, reqOff, io, B, B⟩
        :: planChunksAux B fs aS aL nr fuel (io + B) (addr + B) (already + B) (io + B)

/-- The chunk plan of `ReadAndCache(handle, buffer, loc, nr, fs)` with block
size `B`:  `aligned_start_offset = loc / B * B`,
`aligned_last_chunk_offset = (loc + nr) / B * B`, and one loop iteration per
`io_start_offset ≤ aligned_last_chunk_offset`. -/
def planChunks (B fs loc nr : Nat) : List CacheReadChunk :=
  let aS := loc / B * B
  let aL := (loc + nr) / B * B
  planChunksAux B fs aS aL nr ((aL - aS) / B + 1) aS 0 0 loc

/-- The caller-visible buffer: byte value at each buffer offset, `none` where
never written. -/
abbrev Buffer := Nat → Option Nat

/-- The block cache, keyed by `(aligned_start_offset, chunk_size)` for one
remote file (the key's path component is fixed throughout one
`ReadAndCache`).  An association list models both the in-memory LRU block
map and the on-disk cache-file directory. -/
abbrev BlockCache := List ((Nat × Nat) × List Nat)

/-- Cache lookup: `FileExists` + file read for the disk reader,
`cache->Get(block_key)` for the in-memory reader. -/
def lookupBlock : BlockCache → Nat × Nat → Option (List Nat)
  | [], _ => none
  | (k, v) :: rest, key => if k = key then some v else lookupBlock rest key

/-- The bytes the inner filesystem returns for a read of `sz` bytes at
offset `off`. -/
def chunkBytes (file : Nat → Nat) (off sz : Nat) : List Nat :=
  (List.range sz).map (fun t => file (off + t))

/-- `CacheReadChunk::CopyBufferToRequestedMemory`: copy `bytes_to_copy` bytes
from the staged block content, starting at
`requested_start_offset - aligned_start_offset`, to the caller's buffer at
`requested_start_addr`.  (On the disk reader's cache-hit path a middle chunk
reads the cache file straight into the caller's buffer; since a middle chunk
has `requested_start_offset = aligned_start_offset` and
`bytes_to_copy = chunk_size`, that direct read equals this copy.) -/
def copyChunk (c : CacheReadChunk) (content : List Nat) (buf : Buffer) : Buffer :=
  fun i =>
    if c.dstOff ≤ i ∧ i < c.dstOff + c.bytes_to_copy then
      content.get? (c.requested_start_offset - c.aligned_start_offset + (i - c.dstOff))
    else buf i

/-- One sub-request: on a cache hit, copy the cached block to the caller's
buffer; on a miss, read the block from the inner filesystem, copy it, and
publish it to the cache (`CacheLocal` / `cache->Put`). -/
def runChunk (file : Nat → Nat) (st : BlockCache × Buffer) (c : CacheReadChunk) :
    BlockCache × Buffer :=
  match lookupBlock st.1 (c.aligned_start_offset, c.chunk_size) with
  | some content => (st.1, copyChunk c content st.2)
  | none =>
    let content := chunkBytes file c.aligned_start_offset c.chunk_size
    (((c.aligned_start_offset, c.chunk_size), content) :: st.1, copyChunk c content st.2)

/-- `ReadAndCache`: plan the chunks, execute every sub-request, return the
final cache state and caller buffer. -/
def ReadAndCache (file : Nat → Nat) (B fs loc nr : Nat) (cache : BlockCache)
    (buf : Buffer) : BlockCache × Buffer :=
  (planChunks B fs loc nr).foldl (runChunk file) (cache, buf)

/-- A cache state is well formed for `file` when every cached block holds
exactly the inner filesystem's bytes for its key — the invariant the cache
maintains (spec §3, invariants 2 and 6). -/
def CacheWellFormed (file : Nat → Nat) (cache : BlockCache) : Prop :=
  ∀ k v, lookupBlock cache k = some v → v = chunkBytes file k.1 k.2

/-! ## `CacheFileSystem::ReadImpl` (cache_filesystem.cpp:265-288) -/

/-- `ReadImpl(handle, buffer, nr_bytes, location)`: zero bytes when
`location ≥ file_size`, otherwise clamp to `min(nr_bytes, file_size -
location)` and dispatch to the cache reader.  Returns
`(bytes_read, cache, buffer)`. -/
def ReadImpl (file : Nat → Nat) (B fs nr loc : Nat) (cache : BlockCache)
    (buf : Buffer) : Nat × BlockCache × Buffer :=
  if fs ≤ loc then (0, cache, buf)
  else
    let bytesToRead := min nr (fs - loc)
    (bytesToRead, ReadAndCache file B fs loc bytesToRead cache buf)

/-- Example file used by witnesses: byte `i` of the remote object is
`97 + i % 26` (the lowercase alphabet repeated). -/
def exampleFile : Nat → Nat := fun i => 97 + i % 26

/-- All-unwritten caller buffer used by witnesses. -/
def exampleBuf : Buffer := fun _ => none

/-! ## SharedLruCache (src/src/utils/include/shared_lru_cache.hpp)

The C++ cache keeps a `std::list<Key> lru_list` (front = MRU) and an
`unordered_map` from `reference_wrapper<const Key>` (hash/equality on the
referenced value) to entries.  List nodes are modelled as `(node id, key)`
pairs with ids drawn from a `next_id` counter, and an entry's `lru_iterator`
is the id of the node it points at.  The map's reference keys compare by key
value and a referenced node's key never changes, so the map is modelled as an
association list keyed by key value; every map mutation below mirrors the
C++ statement for statement.  `GetSteadyNowMilliSecSinceEpoch()` is passed in
as the `now` argument of each operation. -/

/-- `SharedLruCache::Entry` (shared_lru_cache.hpp:136-147). -/
structure SEntry (V : Type) where
  value : V
  timestamp : Nat
  lru_iterator : Nat
  deriving Repr, DecidableEq

/-- `SharedLruCache` state. -/
structure SharedLru (K V : Type) where
  max_entries : Nat
  timeout_millisec : Nat
  lru_list : List (Nat × K)
  entry_map : List (K × SEntry V)
  next_id : Nat
  deriving Repr

/-- The freshly constructed cache (shared_lru_cache.hpp:38-40). -/
def SharedLru.mkEmpty (K V : Type) (max timeout : Nat) : SharedLru K V :=
  ⟨max, timeout, [], [], 0⟩

/-- `entry_map.find(key)` — lookup by key value. -/
def findEntry {K V : Type} [DecidableEq K] : List (K × SEntry V) → K → Option (SEntry V)
  | [], _ => none
  | (k, e) :: rest, key => if k = key then some e else findEntry rest key

/-- `entry_map[key_cref] = entry` — `operator[]` assignment: overwrite the
entry of an existing key (the map's stored reference key is untouched), or
insert a fresh binding. -/
def setEntry {K V : Type} [DecidableEq K] : List (K × SEntry V) → K → SEntry V →
    List (K × SEntry V)
  | [], key, e => [(key, e)]
  | (k, old) :: rest, key, e =>
    if k = key then (k, e) :: rest else (k, old) :: setEntry rest key e

/-- `entry_map.erase(key)` — remove the binding of `key`, if any. -/
def eraseEntry {K V : Type} [DecidableEq K] : List (K × SEntry V) → K → List (K × SEntry V)
  | [], _ => []
  | (k, e) :: rest, key => if k = key then rest else (k, e) :: eraseEntry rest key

/-- `lru_list.erase(iterator)` — unlink the node with the given id. -/
def eraseNode {K : Type} (l : List (Nat × K)) (nid : Nat) : List (Nat × K) :=
  l.eraseP (fun n => n.1 == nid)

/-- `lru_list.splice(begin, lru_list, iterator)` — move the node with the
given id to the front. -/
def spliceToFront {K : Type} (l : List (Nat × K)) (nid : Nat) : List (Nat × K) :=
  match l.find? (fun n => n.1 == nid) with
  | none => l
  | some n => n :: l.eraseP (fun m => m.1 == nid)

/-- `SharedLruCache::Put` (shared_lru_cache.hpp:49-64): push a fresh key node
at the front, assign the map entry through `operator[]` (which keeps the old
reference key and, crucially, does not unlink a replaced entry's old list
node), then evict by the list's back key if the list outgrew `max_entries`. -/
def SharedLru.put {K V : Type} [DecidableEq K] (c : SharedLru K V) (key : K) (value : V)
    (now : Nat) : SharedLru K V :=
  let nid := c.next_id
  let list1 := (nid, key) :: c.lru_list
  let map1 := setEntry c.entry_map key ⟨value, now, nid⟩
  if 0 < c.max_entries ∧ c.max_entries < list1.length then
    match list1.getLast? with
    | some stale =>
      { c with lru_list := list1.dropLast, entry_map := eraseEntry map1 stale.2,
               next_id := nid + 1 }
    | none => { c with lru_list := list1, entry_map := map1, next_id := nid + 1 }
  else
    { c with lru_list := list1, entry_map := map1, next_id := nid + 1 }

/-- `SharedLruCache::Get` (shared_lru_cache.hpp:79-96): miss on absent key;
on a hit with `timeout > 0` and `now - timestamp > timeout`, delete the entry
(`DeleteImpl`) and report absence; otherwise splice the entry's node to the
MRU front and return the value. -/
def SharedLru.get {K V : Type} [DecidableEq K] (c : SharedLru K V) (key : K) (now : Nat) :
    Option V × SharedLru K V :=
  match findEntry c.entry_map key with
  | none => (none, c)
  | some e =>
    if 0 < c.timeout_millisec ∧ c.timeout_millisec < now - e.timestamp then
      (none, { c with lru_list := eraseNode c.lru_list e.lru_iterator,
                      entry_map := eraseEntry c.entry_map key })
    else
      (some e.value, { c with lru_list := spliceToFront c.lru_list e.lru_iterator })

/-- `SharedLruCache::Delete` (shared_lru_cache.hpp:68-75). -/
def SharedLru.del {K V : Type} [DecidableEq K] (c : SharedLru K V) (key : K) :
    Bool × SharedLru K V :=
  match findEntry c.entry_map key with
  | none => (false, c)
  | some e =>
    (true, { c with lru_list := eraseNode c.lru_list e.lru_iterator,
                    entry_map := eraseEntry c.entry_map key })

/-! ## ExclusiveMultiLruCache (src/src/utils/include/exclusive_multi_lru_cache.hpp)

Same node-id modelling as `SharedLru`.  Each key maps to a deque of entries
(front = oldest); `cur_entries_num` counts all entries.  `ClearAndGetValues`
is not part of the modelled operation alphabet: in the product it is only
invoked by `CacheFileSystem::ClearFileHandleCache` (cache_filesystem.cpp:69-78)
immediately before the cache object is destroyed, so no operation ever runs
on a cleared state. -/

/-- `ExclusiveMultiLruCache::Entry` (exclusive_multi_lru_cache.hpp:166-177). -/
structure MEntry (V : Type) where
  value : V
  timestamp : Nat
  lru_iterator : Nat
  deriving Repr, DecidableEq

/-- `ExclusiveMultiLruCache` state. -/
structure MultiLru (K V : Type) where
  max_entries : Nat
  timeout_millisec : Nat
  cur_entries_num : Nat
  lru_list : List (Nat × K)
  entry_map : List (K × List (MEntry V))
  next_id : Nat
  deriving Repr, DecidableEq

/-- The freshly constructed cache (exclusive_multi_lru_cache.hpp:52-54). -/
def MultiLru.mkEmpty (K V : Type) (max timeout : Nat) : MultiLru K V :=
  ⟨max, timeout, 0, [], [], 0⟩

/-- `entry_map.find(key)`. -/
def findDeque {K V : Type} [DecidableEq K] : List (K × List (MEntry V)) → K →
    Option (List (MEntry V))
  | [], _ => none
  | (k, d) :: rest, key => if k = key then some d else findDeque rest key

/-- `entry_map[key].emplace_back(entry)` — append to an existing deque, or
create a singleton binding for a new key. -/
def appendDeque {K V : Type} [DecidableEq K] : List (K × List (MEntry V)) → K → MEntry V →
    List (K × List (MEntry V))
  | [], key, e => [(key, [e])]
  | (k, d) :: rest, key, e =>
    if k = key then (k, d ++ [e]) :: rest else (k, d) :: appendDeque rest key e

/-- Replace the deque bound to `key` (the `entries.pop_front()` case of
`DeleteFirstEntry`). -/
def updateDeque {K V : Type} [DecidableEq K] : List (K × List (MEntry V)) → K →
    List (MEntry V) → List (K × List (MEntry V))
  | [], _, _ => []
  | (k, d) :: rest, key, d2 =>
    if k = key then (k, d2) :: rest else (k, d) :: updateDeque rest key d2

/-- `entry_map.erase(iter)` (the `entries.size() == 1` case of
`DeleteFirstEntry`). -/
def eraseDequeKey {K V : Type} [DecidableEq K] : List (K × List (MEntry V)) → K →
    List (K × List (MEntry V))
  | [], _ => []
  | (k, d) :: rest, key => if k = key then rest else (k, d) :: eraseDequeKey rest key

/-- `ExclusiveMultiLruCache::DeleteFirstEntry` (hpp:182-195): pop the oldest
entry of `key`'s deque, unlink its list node, erase the map binding when it
was the deque's only entry, decrement the entry count, return the value.
The two `none` fallbacks correspond to the `D_ASSERT(!entries.empty())`
assertions; they are unreachable from well-formed states. -/
def MultiLru.deleteFirstEntry {K V : Type} [DecidableEq K] (c : MultiLru K V) (key : K) :
    Option V × MultiLru K V :=
  match findDeque c.entry_map key with
  | none => (none, c)
  | some [] => (none, c)
  | some (e :: rest) =>
    (some e.value,
     { c with
       lru_list := eraseNode c.lru_list e.lru_iterator,
       entry_map := if rest.isEmpty then eraseDequeKey c.entry_map key
                    else updateDeque c.entry_map key rest,
       cur_entries_num := c.cur_entries_num - 1 })

/-- `ExclusiveMultiLruCache::Put` (hpp:68-87): push a fresh key node at the
front, append the entry to the key's deque, bump the count; if the count now
exceeds a positive `max_entries`, evict the first (oldest) entry of the key
owning the list's back node and return the evicted value. -/
def MultiLru.put {K V : Type} [DecidableEq K] (c : MultiLru K V) (key : K) (value : V)
    (now : Nat) : Option V × MultiLru K V :=
  let nid := c.next_id
  let mid : MultiLru K V :=
    { c with
      lru_list := (nid, key) :: c.lru_list,
      entry_map := appendDeque c.entry_map key ⟨value, now, nid⟩,
      cur_entries_num := c.cur_entries_num + 1,
      next_id := nid + 1 }
  if 0 < c.max_entries ∧ c.max_entries < mid.cur_entries_num then
    match mid.lru_list.getLast? with
    | some stale => mid.deleteFirstEntry stale.2
    | none => (none, mid)
  else
    (none, mid)

/-- The stale-eviction loop at the head of `GetAndPop` (hpp:101-112).  The
C++ loop guard is the cache-wide `cur_entries_num > 0` (hpp:104), not the
looked-up key's deque: every iteration reads `entries.front()` of that key's
deque and, when the front is expired, `DeleteFirstEntry`s it, decrementing
the local `cur_entries_size` counter (modelled by `curSize`).  When the
deleted entry was the key's last one, `DeleteFirstEntry` erases the key's
map node; if entries remain under other keys the guard is still true and the
next iteration reads the front of the destroyed deque — an undefined access,
modelled as `none` (as is the deque with no front, unreachable from
well-formed states).  `fuel` only bounds the recursion: every `continue`
decrements `cur_entries_num`, whose positivity is the loop guard, so the
`cur_entries_num + 1` that `getAndPop` passes can never run out. -/
def evictStaleLoop {K V : Type} [DecidableEq K] :
    MultiLru K V → K → Nat → Nat → Nat → Option (List V × Nat × MultiLru K V)
  | _, _, _, _, 0 => none
  | c, key, now, curSize, fuel + 1 =>
    if c.cur_entries_num = 0 then some ([], curSize, c)
    else
      match findDeque c.entry_map key with
      | none => none
      | some [] => none
      | some (e :: _) =>
        if c.timeout_millisec < now - e.timestamp then
          match c.deleteFirstEntry key with
          | (v, c1) =>
            match evictStaleLoop c1 key now (curSize - 1) fuel with
            | some (vs, cs, c2) => some (v.toList ++ vs, cs, c2)
            | none => none
        else some ([], curSize, c)

/-- `ExclusiveMultiLruCache::GetAndPop` (hpp:91-125): absent key returns an
empty result.  With a positive TTL the stale loop above runs first, its
local counter starting at the key's deque length; when the counter reached
zero the function returns no target without touching the deque again
(hpp:115-117).  Otherwise `entries.front()` is popped as the target; the
`D_ASSERT(!entries.empty())` guarding that read (and the dangling access it
would otherwise be) is the `(none, _)` case of `deleteFirstEntry`.  The whole
result is `none` when the execution runs into undefined behaviour; a defined
run returns `some ((evicted_items, target_item), new_state)`. -/
def MultiLru.getAndPop {K V : Type} [DecidableEq K] (c : MultiLru K V) (key : K)
    (now : Nat) : Option ((List V × Option V) × MultiLru K V) :=
  match findDeque c.entry_map key with
  | none => some (([], none), c)
  | some entries =>
    if 0 < c.timeout_millisec then
      match evictStaleLoop c key now entries.length (c.cur_entries_num + 1) with
      | none => none
      | some (evicted, curSize, c1) =>
        if curSize = 0 then some ((evicted, none), c1)
        else
          match c1.deleteFirstEntry key with
          | (some v, c2) => some ((evicted, some v), c2)
          | (none, _) => none
    else
      match c.deleteFirstEntry key with
      | (some v, c2) => some (([], some v), c2)
      | (none, _) => none

/-! ### C2, C3, C4: counterexample states -/

/-- Reachable shared-cache state for the C4 counterexample: two puts of the
same key (unbounded capacity, no TTL). -/
def c4State : SharedLru Nat Nat :=
  ((SharedLru.mkEmpty Nat Nat 0 0).put 1 10 0).put 1 20 1

/-- Reachable shared-cache state for the C3 counterexample: capacity 2,
`put 1`, `put 2`, then an overwriting `put 1`. -/
def c3State : SharedLru Nat Nat :=
  (((SharedLru.mkEmpty Nat Nat 2 0).put 1 10 0).put 2 20 1).put 1 30 2

/-- Reachable exclusive-multi-cache state for C2: TTL 100 ms, two values
for key 1 inserted at t=0 and t=150. -/
def c2State : MultiLru Nat Nat :=
  (((MultiLru.mkEmpty Nat Nat 0 100).put 1 10 0).2.put 1 20 150).2

/-- Reachable multi-cache state for the C2 use-after-free: TTL 100 ms, one
value for key 1 at t=0 (expired by t=201) and one for key 2 at t=200. -/
def c2UBState : MultiLru Nat Nat :=
  (((MultiLru.mkEmpty Nat Nat 0 100).put 1 10 0).2.put 2 77 200).2

/-- The same single stale entry for key 1 with nothing else in the cache:
here the loop's cache-wide guard does reach zero and the lookup reports
absence through the defined `cur_entries_size == 0` exit. -/
def c2SoleState : MultiLru Nat Nat :=
  ((MultiLru.mkEmpty Nat Nat 0 100).put 1 10 0).2

/-! ### C3: capacity bound under every operation sequence -/

/-- Operations of `SharedLruCache` (`GetOrCreate` of the thread-safe wrapper
is a `Get` followed, on a miss, by a `Put`, both already in the alphabet). -/
inductive SOp (K V : Type) where
  | put (k : K) (v : V) (t : Nat)
  | get (k : K) (t : Nat)
  | del (k : K)
  | clear

/-- Apply one operation (`Clear` empties both structures,
shared_lru_cache.hpp:99-102). -/
def SharedLru.applyOp {K V : Type} [DecidableEq K] (c : SharedLru K V) :
    SOp K V → SharedLru K V
  | .put k v t => c.put k v t
  | .get k t => (c.get k t).2
  | .del k => (c.del k).2
  | .clear => { c with lru_list := [], entry_map := [] }

/-- Run a sequence of operations. -/
def SharedLru.runOps {K V : Type} [DecidableEq K] (c : SharedLru K V)
    (ops : List (SOp K V)) : SharedLru K V :=
  ops.foldl SharedLru.applyOp c

/-- Operations of `ExclusiveMultiLruCache`. -/
inductive MOp (K V : Type) where
  | put (k : K) (v : V) (t : Nat)
  | getAndPop (k : K) (t : Nat)

/-- Apply one operation.  A `GetAndPop` that runs into the undefined
dangling-deque read (see `evictStaleLoop`) has no defined successor state;
the operation alphabet models the defined transitions and leaves the state
unchanged on an undefined one. -/
def MultiLru.applyOp {K V : Type} [DecidableEq K] (c : MultiLru K V) :
    MOp K V → MultiLru K V
  | .put k v t => (c.put k v t).2
  | .getAndPop k t =>
    match c.getAndPop k t with
    | some r => r.2
    | none => c

def MultiLru.runOps {K V : Type} [DecidableEq K] (c : MultiLru K V)
    (ops : List (MOp K V)) : MultiLru K V :=
  ops.foldl MultiLru.applyOp c

/-- The `(lru_iterator, key)` pairs of every entry of the multi cache's map —
the map-side view of the key list. -/
def flattenPairs {K V : Type} (m : List (K × List (MEntry V))) : List (Nat × K) :=
  m.flatMap (fun kd => kd.2.map (fun e => (e.lru_iterator, kd.1)))

/-- Structural well-formedness of a `SharedLru` state: value-unique map keys,
distinct live node ids below the id counter, and every map entry's iterator
pointing at a live node carrying the entry's key. -/
def SWf {K V : Type} (c : SharedLru K V) : Prop :=
  (c.entry_map.map Prod.fst).Nodup ∧
  (c.lru_list.map Prod.fst).Nodup ∧
  (∀ n ∈ c.lru_list, n.1 < c.next_id) ∧
  (∀ ke ∈ c.entry_map, (ke.2.lru_iterator, ke.1) ∈ c.lru_list)

/-- Structural well-formedness of a `MultiLru` state: the entry count is the
key-list length, the map's `(iterator, key)` pairs are a permutation of the
key list, node ids are distinct and below the counter, map keys are unique
and every deque is nonempty. -/
def MWf {K V : Type} (c : MultiLru K V) : Prop :=
  c.cur_entries_num = c.lru_list.length ∧
  List.Perm (flattenPairs c.entry_map) c.lru_list ∧
  (c.lru_list.map Prod.fst).Nodup ∧
  (∀ n ∈ c.lru_list, n.1 < c.next_id) ∧
  (c.entry_map.map Prod.fst).Nodup ∧
  (∀ kd ∈ c.entry_map, kd.2 ≠ [])

/-- Capacity bound predicate for the shared cache. -/
def SBound {K V : Type} (c : SharedLru K V) : Prop :=
  0 < c.max_entries → c.lru_list.length ≤ c.max_entries

/-! ### C8: at-most-once production per block key

Two small interleaving models.  `gorStep` models
`ThreadSafeSharedLruCache::GetOrCreate` (shared_lru_cache.hpp:244-294): under
the mutex a thread either returns the cached value, joins an ongoing creation
(waiting on the token's condition variable), or registers the creation token
and becomes the producer; the factory runs outside the critical section and
its result is published to both the cache and the token.  `memStep` models the
sub-request lambda of `InMemoryCacheReader::ReadAndCache`
(in_memory_cache_reader.cpp:108-143), which does `cache->Get`, and on a miss
performs the remote read and then `cache->Put` — with no creation token.
A scheduler step picks a thread index; a thread whose guard is not ready
(a waiter with an unfinished token) or that is finished leaves the state
unchanged. -/

/-- Thread phase in the `GetOrCreate` protocol. -/
inductive GorTState where
  | start
  | waiting
  | producing
  | done (v : Nat)
  deriving Repr, DecidableEq

/-- Global state of the `GetOrCreate` model: the cache slot for the one key
under contention, the creation token's published value, whether a token is
registered, how many times the factory has been started, and the threads. -/
structure GorState where
  cacheVal : Option Nat
  tokenVal : Option Nat
  tokenExists : Bool
  fetchCount : Nat
  threads : List GorTState
  deriving Repr, DecidableEq

/-- One scheduler step of the `GetOrCreate` model
(shared_lru_cache.hpp:244-294). -/
def gorStep (fv : Nat) (g : GorState) (i : Nat) : GorState :=
  match g.threads[i]? with
  | none => g
  | some .start =>
    match g.cacheVal with
    | some v => { g with threads := g.threads.set i (.done v) }
    | none =>
      if g.tokenExists then { g with threads := g.threads.set i .waiting }
      else { g with tokenExists := true, fetchCount := g.fetchCount + 1,
                    threads := g.threads.set i .producing }
  | some .waiting =>
    match g.tokenVal with
    | some v => { g with threads := g.threads.set i (.done v) }
    | none => g
  | some .producing =>
    { g with cacheVal := some fv, tokenVal := some fv,
             threads := g.threads.set i (.done fv) }
  | some (.done _) => g

/-- `n` threads all requesting the same absent key. -/
def gorBegin (n : Nat) : GorState := ⟨none, none, false, 0, List.replicate n .start⟩

/-- Run a schedule (a list of thread indices). -/
def gorRun (fv : Nat) (g : GorState) (sched : List Nat) : GorState :=
  sched.foldl (gorStep fv) g

/-- Inductive invariant of the `GetOrCreate` model: the factory has started at
most once; while no token is registered nothing has happened at all; cache
slot, token value and every finished thread carry the factory's value; and at
most one thread is producing. -/
def GorInv (fv : Nat) (g : GorState) : Prop :=
  g.fetchCount ≤ 1 ∧
  (g.tokenExists = false →
    g.fetchCount = 0 ∧ g.cacheVal = none ∧ g.tokenVal = none ∧
    ∀ (j : Nat) t, g.threads[j]? = some t → t = GorTState.start) ∧
  (∀ v, g.cacheVal = some v → v = fv) ∧
  (∀ v, g.tokenVal = some v → v = fv) ∧
  (∀ (j : Nat) v, g.threads[j]? = some (GorTState.done v) → v = fv) ∧
  (∀ (j k : Nat), g.threads[j]? = some GorTState.producing →
    g.threads[k]? = some GorTState.producing → j = k)

/-- Thread phase in the in-memory sub-request model. -/
inductive MemTState where
  | start
  | fetching
  | done (v : Nat)
  deriving Repr, DecidableEq

/-- Global state of the in-memory sub-request model. -/
structure MemState where
  cacheVal : Option Nat
  fetchCount : Nat
  threads : List MemTState
  deriving Repr, DecidableEq

/-- One scheduler step of the in-memory sub-request model
(in_memory_cache_reader.cpp:112-143): `cache->Get`, then on a miss the remote
read followed by `cache->Put`, with no creation token anywhere. -/
def memStep (fv : Nat) (g : MemState) (i : Nat) : MemState :=
  match g.threads[i]? with
  | none => g
  | some .start =>
    match g.cacheVal with
    | some v => { g with threads := g.threads.set i (.done v) }
    | none => { g with threads := g.threads.set i .fetching }
  | some .fetching =>
    { g with cacheVal := some fv, fetchCount := g.fetchCount + 1,
             threads := g.threads.set i (.done fv) }
  | some (.done _) => g

/-- `n` threads all sub-requesting the same absent block key. -/
def memBegin (n : Nat) : MemState := ⟨none, 0, List.replicate n .start⟩

/-- Run a schedule of the in-memory sub-request model. -/
def memRun (fv : Nat) (g : MemState) (sched : List Nat) : MemState :=
  sched.foldl (memStep fv) g

/-! ### C10: Close is a no-op for read handles; release happens at destruction

`CacheFileSystemHandle::Close` (cache_filesystem.cpp:43-47) closes the inner
handle only when the facade was NOT opened for reading, and never touches the
file-handle cache.  The destructor (cache_filesystem.cpp:20-41) is where a
read handle's inner handle is released: with the cache enabled it is `Reset`
(file position cleared) and `Put` back under `(path, flags|PARALLEL_ACCESS)`,
and only a handle evicted by that `Put` is closed; with the cache disabled
(or for a write handle) the inner handle is closed on destruction. -/

/-- The inner `FileHandle`: an identity, a file position, and whether it has
been closed.  `Reset` (called by the destructor before the `Put`) clears the
position. -/
structure InnerHandle where
  id : Nat
  pos : Nat
  closed : Bool
  deriving Repr, DecidableEq

/-- `FileHandle::Reset` as used at cache_filesystem.cpp:34. -/
def InnerHandle.reset (h : InnerHandle) : InnerHandle := { h with pos := 0 }

/-- The facade-relevant world state: whether `file_handle_cache` exists, the
cache itself (keyed by an id standing for `(path, flags|PARALLEL_ACCESS)`),
and the ids of inner handles closed so far. -/
structure CfhState where
  fileHandleCacheEnabled : Bool
  cache : MultiLru Nat InnerHandle
  closedIds : List Nat
  deriving Repr

/-- `CacheFileSystemHandle::Close` (cache_filesystem.cpp:43-47). -/
def cfhClose (isRead : Bool) (inner : InnerHandle) (st : CfhState) :
    InnerHandle × CfhState :=
  if isRead then (inner, st)
  else ({ inner with closed := true },
        { st with closedIds := inner.id :: st.closedIds })

/-- `CacheFileSystemHandle::~CacheFileSystemHandle`
(cache_filesystem.cpp:20-41): a read handle's inner handle is reset and put
back into the enabled cache (closing only a handle the `Put` evicts); with
the cache disabled, and for non-read handles, destruction closes the inner
handle. -/
def cfhDestroy (isRead : Bool) (key : Nat) (inner : InnerHandle) (now : Nat)
    (st : CfhState) : CfhState :=
  if isRead then
    if st.fileHandleCacheEnabled then
      match st.cache.put key inner.reset now with
      | (some evicted, cache2) =>
        { st with cache := cache2, closedIds := evicted.id :: st.closedIds }
      | (none, cache2) => { st with cache := cache2 }
    else
      { st with closedIds := inner.id :: st.closedIds }
  else
    { st with closedIds := inner.id :: st.closedIds }


/-! ## Theorems -/

/-! ### Round-trip correctness of `ReadAndCache` -/

theorem planChunksAux_case1 (B fs aS aL nr fuel io addr already reqOff : Nat)
    (h1 : io = aS) (h2 : io = aL) :
    planChunksAux B fs aS aL nr (fuel + 1) io addr already reqOff =
      ⟨addr, reqOff, io, min B (fs - io), nr⟩
        :: planChunksAux B fs aS aL nr fuel (io + B) addr already (io + B) := by
  rw [planChunksAux, if_pos ⟨h1, h2⟩]

theorem planChunksAux_case2 (B fs aS aL nr fuel io addr already reqOff : Nat)
    (h1 : io = aS) (h2 : ¬ io = aL) :
    planChunksAux B fs aS aL nr (fuel + 1) io addr already reqOff =
      ⟨addr, reqOff, io, B, B - (reqOff - io)⟩
        :: planChunksAux B fs aS aL nr fuel (io + B) (addr + (B - (reqOff - io)))
            (already + (B - (reqOff - io))) (io + B) := by
  rw [planChunksAux, if_neg (fun h => h2 h.2), if_pos h1]

theorem planChunksAux_case3 (B fs aS aL nr fuel io addr already reqOff : Nat)
    (h1 : ¬ io = aS) (h2 : io = aL) :
    planChunksAux B fs aS aL nr (fuel + 1) io addr already reqOff =
      ⟨addr, reqOff, io, min B (fs - io), nr - already⟩
        :: planChunksAux B fs aS aL nr fuel (io + B) addr already (io + B) := by
  rw [planChunksAux, if_neg (fun h => h1 h.1), if_neg h1, if_pos h2]

theorem planChunksAux_case4 (B fs aS aL nr fuel io addr already reqOff : Nat)
    (h1 : ¬ io = aS) (h2 : ¬ io = aL) :
    planChunksAux B fs aS aL nr (fuel + 1) io addr already reqOff =
      ⟨addr, reqOff, io, B, B⟩
        :: planChunksAux B fs aS aL nr fuel (io + B) (addr + B) (already + B) (io + B) := by
  rw [planChunksAux, if_neg (fun h => h1 h.1), if_neg h1, if_neg h2]

theorem chunkBytes_get (file : Nat → Nat) (off sz t : Nat) (ht : t < sz) :
    (chunkBytes file off sz).get? t = some (file (off + t)) := by
  simp [chunkBytes]
  exact ⟨t, by simp [List.getElem?_range ht], rfl⟩

theorem cacheWellFormed_insert (file : Nat → Nat) (cache : BlockCache) (off sz : Nat)
    (h : CacheWellFormed file cache) :
    CacheWellFormed file (((off, sz), chunkBytes file off sz) :: cache) := by
  intro k v hl
  rw [lookupBlock] at hl
  split at hl
  · rename_i heq
    subst heq
    exact (Option.some.inj hl).symm
  · exact h k v hl

theorem runChunk_fst_wf (file : Nat → Nat) (st : BlockCache × Buffer) (c : CacheReadChunk)
    (h : CacheWellFormed file st.1) : CacheWellFormed file (runChunk file st c).1 := by
  unfold runChunk
  cases hl : lookupBlock st.1 (c.aligned_start_offset, c.chunk_size) with
  | none => exact cacheWellFormed_insert file st.1 _ _ h
  | some content => exact h

theorem runChunk_snd (file : Nat → Nat) (st : BlockCache × Buffer) (c : CacheReadChunk)
    (h : CacheWellFormed file st.1) :
    (runChunk file st c).2 =
      copyChunk c (chunkBytes file c.aligned_start_offset c.chunk_size) st.2 := by
  unfold runChunk
  cases hl : lookupBlock st.1 (c.aligned_start_offset, c.chunk_size) with
  | none => rfl
  | some content =>
    have hcontent := h _ _ hl
    simp only [hcontent]

/-- Correctness of the loop iterations from the second chunk on: starting at
`io = aligned_start + i·B` (`i ≥ 1`) with `addr = already = io - loc` and
`reqOff = io`, the remaining sub-requests fill the buffer region
`[io - loc, nr)` with the file bytes of `[io, loc + nr)`, touch nothing
below `io - loc`, and preserve cache well-formedness. -/
theorem planAux_spec (file : Nat → Nat) (B fs aS aL loc nr : Nat) (hB : 0 < B)
    (hfs : loc + nr ≤ fs) (hnr : aL ≤ loc + nr) (hlast : loc + nr < aL + B)
    (haS : aS ≤ loc) :
    ∀ fuel io, loc < io → io + fuel * B = aL + B →
      ∀ cache buf, CacheWellFormed file cache →
      CacheWellFormed file
        ((planChunksAux B fs aS aL nr fuel io (io - loc) (io - loc) io).foldl
          (runChunk file) (cache, buf)).1 ∧
      (∀ p, p < io - loc →
        ((planChunksAux B fs aS aL nr fuel io (io - loc) (io - loc) io).foldl
          (runChunk file) (cache, buf)).2 p = buf p) ∧
      (∀ p, io - loc ≤ p → p < nr →
        ((planChunksAux B fs aS aL nr fuel io (io - loc) (io - loc) io).foldl
          (runChunk file) (cache, buf)).2 p = some (file (loc + p))) := by
  intro fuel
  induction fuel with
  | zero =>
    intro io hio hfuel cache buf hwf
    rw [planChunksAux]
    simp only [List.foldl_nil]
    refine ⟨hwf, fun _ _ => trivial, fun p hp1 hp2 => ?_⟩
    simp only [Nat.zero_mul] at hfuel
    omega
  | succ k ih =>
    intro io hio hfuel cache buf hwf
    have hneS : ¬ io = aS := by omega
    have hkB : (k + 1) * B = k * B + B := by ring
    rcases Nat.eq_zero_or_pos k with hk | hk
    · -- last chunk: io = aL
      subst hk
      have hioL : io = aL := by omega
      rw [planChunksAux_case3 B fs aS aL nr 0 io (io - loc) (io - loc) io hneS hioL,
        planChunksAux]
      simp only [List.foldl_cons, List.foldl_nil]
      set c : CacheReadChunk := ⟨io - loc, io, io, min B (fs - io), nr - (io - loc)⟩ with hc
      have hwf1 := runChunk_fst_wf file (cache, buf) c hwf
      have hbuf1 := runChunk_snd file (cache, buf) c hwf
      refine ⟨hwf1, ?_, ?_⟩
      · intro p hp
        rw [hbuf1]
        simp only [copyChunk, hc]
        rw [if_neg (by omega)]
      · intro p hp1 hp2
        rw [hbuf1]
        simp only [copyChunk, hc]
        rw [if_pos (by omega)]
        have ht : io - io + (p - (io - loc)) < min B (fs - io) := by omega
        rw [chunkBytes_get file io _ _ ht]
        have hidx : io + (io - io + (p - (io - loc))) = loc + p := by omega
        rw [hidx]
    · -- middle chunk: io < aL
      have hkBle : B ≤ k * B := Nat.le_mul_of_pos_left B hk
      have hioL : ¬ io = aL := by omega
      rw [planChunksAux_case4 B fs aS aL nr k io (io - loc) (io - loc) io hneS hioL]
      simp only [List.foldl_cons]
      set c : CacheReadChunk := ⟨io - loc, io, io, B, B⟩ with hc
      have harg : io - loc + B = io + B - loc := by omega
      rw [harg]
      have hwf1 := runChunk_fst_wf file (cache, buf) c hwf
      have hbuf1 := runChunk_snd file (cache, buf) c hwf
      rcases hst : runChunk file (cache, buf) c with ⟨cache1, buf1⟩
      rw [hst] at hwf1 hbuf1
      have hwf1' : CacheWellFormed file cache1 := hwf1
      have hbuf1' : buf1 = copyChunk c (chunkBytes file c.aligned_start_offset c.chunk_size) buf :=
        hbuf1
      have hfuel' : io + B + k * B = aL + B := by omega
      obtain ⟨hrecWf, hrecLow, hrecHigh⟩ := ih (io + B) (by omega) hfuel' cache1 buf1 hwf1'
      refine ⟨hrecWf, ?_, ?_⟩
      · intro p hp
        rw [hrecLow p (by omega), hbuf1']
        simp only [copyChunk, hc]
        rw [if_neg (by omega)]
      · intro p hp1 hp2
        by_cases hmid : p < io + B - loc
        · rw [hrecLow p hmid, hbuf1']
          simp only [copyChunk, hc]
          rw [if_pos (by omega)]
          have ht : io - io + (p - (io - loc)) < B := by omega
          rw [chunkBytes_get file io _ _ ht]
          have hidx : io + (io - io + (p - (io - loc))) = loc + p := by omega
          rw [hidx]
        · exact hrecHigh p (by omega) hp2

/-- The full round-trip property of `ReadAndCache`: the returned buffer holds
the inner file's bytes of `[loc, loc + nr)` and the cache stays well formed. -/
theorem readAndCache_spec (file : Nat → Nat) (B fs loc nr : Nat) (cache : BlockCache)
    (buf : Buffer) (hB : 0 < B) (hle : loc + nr ≤ fs)
    (hwf : CacheWellFormed file cache) :
    (∀ p, p < nr → (ReadAndCache file B fs loc nr cache buf).2 p = some (file (loc + p))) ∧
    CacheWellFormed file (ReadAndCache file B fs loc nr cache buf).1 := by
  have haS : loc / B * B ≤ loc := Nat.div_mul_le_self loc B
  have hmod1 : B * (loc / B) + loc % B = loc := Nat.div_add_mod loc B
  have hmod1' : loc % B < B := Nat.mod_lt loc hB
  have haSm : loc / B * B = B * (loc / B) := Nat.mul_comm _ _
  have hmod2 : B * ((loc + nr) / B) + (loc + nr) % B = loc + nr := Nat.div_add_mod (loc + nr) B
  have hmod2' : (loc + nr) % B < B := Nat.mod_lt (loc + nr) hB
  have haLm : (loc + nr) / B * B = B * ((loc + nr) / B) := Nat.mul_comm _ _
  have hq : loc / B ≤ (loc + nr) / B := Nat.div_le_div_right (Nat.le_add_right loc nr)
  have hqB : loc / B * B ≤ (loc + nr) / B * B := Nat.mul_le_mul_right B hq
  have hsub : ((loc + nr) / B - loc / B) * B = (loc + nr) / B * B - loc / B * B :=
    Nat.sub_mul _ _ _
  have hdiv : ((loc + nr) / B * B - loc / B * B) / B = (loc + nr) / B - loc / B := by
    rw [← hsub]
    exact Nat.mul_div_cancel _ hB
  simp only [ReadAndCache, planChunks, hdiv]
  by_cases hcase : loc / B * B = (loc + nr) / B * B
  · -- a single (sole) chunk
    have hq2 : (loc + nr) / B - loc / B = 0 := by
      have := Nat.eq_of_mul_eq_mul_right hB hcase
      omega
    rw [hq2, planChunksAux_case1 B fs (loc / B * B) ((loc + nr) / B * B) nr 0
      (loc / B * B) 0 0 loc rfl hcase, planChunksAux]
    simp only [List.foldl_cons, List.foldl_nil]
    set c : CacheReadChunk :=
      ⟨0, loc, loc / B * B, min B (fs - loc / B * B), nr⟩ with hc
    have hwf1 := runChunk_fst_wf file (cache, buf) c hwf
    have hbuf1 := runChunk_snd file (cache, buf) c hwf
    refine ⟨?_, hwf1⟩
    intro p hp
    rw [hbuf1]
    simp only [copyChunk, hc]
    rw [if_pos (by omega)]
    have ht : loc - loc / B * B + (p - 0) < min B (fs - loc / B * B) := by omega
    rw [chunkBytes_get file _ _ _ ht]
    have hidx : loc / B * B + (loc - loc / B * B + (p - 0)) = loc + p := by omega
    rw [hidx]
  · -- first chunk of many, then the tail handled by `planAux_spec`
    have hsubpos : 0 < (loc + nr) / B - loc / B := by
      by_contra h
      have h0 : (loc + nr) / B - loc / B = 0 := by omega
      rw [h0, Nat.zero_mul] at hsub
      omega
    obtain ⟨m, hm⟩ : ∃ m, (loc + nr) / B - loc / B = m + 1 :=
      ⟨(loc + nr) / B - loc / B - 1, by omega⟩
    rw [hm, planChunksAux_case2 B fs (loc / B * B) ((loc + nr) / B * B) nr (m + 1)
      (loc / B * B) 0 0 loc rfl (by omega)]
    simp only [List.foldl_cons]
    set c : CacheReadChunk :=
      ⟨0, loc, loc / B * B, B, B - (loc - loc / B * B)⟩ with hc
    have hsubB : (m + 1) * B = (loc + nr) / B * B - loc / B * B := by
      rw [← hm, hsub]
    have harg : 0 + (B - (loc - loc / B * B)) = loc / B * B + B - loc := by omega
    rw [harg]
    have hwf1 := runChunk_fst_wf file (cache, buf) c hwf
    have hbuf1 := runChunk_snd file (cache, buf) c hwf
    rcases hst : runChunk file (cache, buf) c with ⟨cache1, buf1⟩
    rw [hst] at hwf1 hbuf1
    have hwf1' : CacheWellFormed file cache1 := hwf1
    have hbuf1' : buf1 = copyChunk c (chunkBytes file c.aligned_start_offset c.chunk_size) buf :=
      hbuf1
    obtain ⟨hrecWf, hrecLow, hrecHigh⟩ := planAux_spec file B fs (loc / B * B)
      ((loc + nr) / B * B) loc nr hB hle (by omega) (by omega) haS (m + 1)
      (loc / B * B + B) (by omega) (by omega) cache1 buf1 hwf1'
    refine ⟨?_, hrecWf⟩
    intro p hp
    by_cases hlow : p < loc / B * B + B - loc
    · rw [hrecLow p hlow, hbuf1']
      simp only [copyChunk, hc]
      rw [if_pos (by omega)]
      have ht : loc - loc / B * B + (p - 0) < B := by omega
      rw [chunkBytes_get file _ _ _ ht]
      have hidx : loc / B * B + (loc - loc / B * B + (p - 0)) = loc + p := by omega
      rw [hidx]
    · exact hrecHigh p (by omega) hp

/-! ### Claim theorems for the cache reader and facade read bounds -/

theorem emptyCacheWellFormed (file : Nat → Nat) : CacheWellFormed file [] :=
  fun _ _ h => Option.noConfusion h

/-- C1: for every read request `(location, nr_bytes)` with
`location + nr_bytes ≤ file_size`, the buffer returned by `ReadAndCache`
equals the bytes the inner filesystem holds at
`[location, location + nr_bytes)`: the block-aligned chunk plan (sole /
first / last / middle cases, their chunk sizes, `bytes_to_copy` amounts and
caller-buffer offsets) exactly reassembles the requested window.  The cache
argument ranges over every well-formed cache state — the empty cache is the
first call (all misses) and, because the final state is again well formed,
the same theorem covers every subsequent call (hits). -/
theorem C1_readAndCache_round_trip (file : Nat → Nat) (B fs loc nr : Nat)
    (cache : BlockCache) (buf : Buffer) (hB : 0 < B) (hle : loc + nr ≤ fs)
    (hwf : CacheWellFormed file cache) :
    (∀ p, p < nr → (ReadAndCache file B fs loc nr cache buf).2 p = some (file (loc + p))) ∧
    CacheWellFormed file (ReadAndCache file B fs loc nr cache buf).1 :=
  readAndCache_spec file B fs loc nr cache buf hB hle hwf

/-- Witness for C1: spec scenario 1 — 26-byte alphabet file, `block_size = 5`,
read `(loc = 2, n = 11)` against the empty cache. -/
theorem C1_readAndCache_round_trip_witness :
    ((0 : Nat) < 5 ∧ 2 + 11 ≤ 26 ∧ CacheWellFormed exampleFile []) ∧
    ((∀ p, p < 11 → (ReadAndCache exampleFile 5 26 2 11 [] exampleBuf).2 p
        = some (exampleFile (2 + p))) ∧
      CacheWellFormed exampleFile (ReadAndCache exampleFile 5 26 2 11 [] exampleBuf).1) :=
  ⟨⟨by decide, by decide, emptyCacheWellFormed exampleFile⟩,
    C1_readAndCache_round_trip exampleFile 5 26 2 11 [] exampleBuf (by decide) (by decide)
      (emptyCacheWellFormed exampleFile)⟩

/-- C7: through the facade, a positional read with `location ≥ file_size`
reads zero bytes and raises no error; with `location < file_size` it is
silently truncated to exactly `min(nr_bytes, file_size - location)` bytes,
that count is returned, and the truncated window is filled correctly. -/
theorem C7_readImpl_bounds (file : Nat → Nat) (B fs nr loc : Nat) (cache : BlockCache)
    (buf : Buffer) (hB : 0 < B) (hwf : CacheWellFormed file cache) :
    (fs ≤ loc → (ReadImpl file B fs nr loc cache buf).1 = 0) ∧
    (loc < fs →
      (ReadImpl file B fs nr loc cache buf).1 = min nr (fs - loc) ∧
      ∀ p, p < min nr (fs - loc) →
        (ReadImpl file B fs nr loc cache buf).2.2 p = some (file (loc + p))) := by
  unfold ReadImpl
  by_cases h : fs ≤ loc
  · rw [if_pos h]
    exact ⟨fun _ => rfl, fun hlt => absurd hlt (by omega)⟩
  · rw [if_neg h]
    refine ⟨fun hge => absurd hge h, fun _ => ⟨rfl, ?_⟩⟩
    exact (readAndCache_spec file B fs loc (min nr (fs - loc)) cache buf hB (by omega) hwf).1

/-- Witness for C7: `file_size = 26`, `block_size = 5`; the read
`(loc = 30, n = 4)` is past the end and reads 0 bytes, the read
`(loc = 20, n = 100)` is truncated to 6 bytes. -/
theorem C7_readImpl_bounds_witness :
    ((0 : Nat) < 5 ∧ CacheWellFormed exampleFile []) ∧
    (26 ≤ 30 → (ReadImpl exampleFile 5 26 4 30 [] exampleBuf).1 = 0) ∧
    (20 < 26 →
      (ReadImpl exampleFile 5 26 100 20 [] exampleBuf).1 = min 100 (26 - 20) ∧
      ∀ p, p < min 100 (26 - 20) →
        (ReadImpl exampleFile 5 26 100 20 [] exampleBuf).2.2 p
          = some (exampleFile (20 + p))) :=
  ⟨⟨by decide, emptyCacheWellFormed exampleFile⟩,
    (C7_readImpl_bounds exampleFile 5 26 4 30 [] exampleBuf (by decide)
      (emptyCacheWellFormed exampleFile)).1,
    (C7_readImpl_bounds exampleFile 5 26 100 20 [] exampleBuf (by decide)
      (emptyCacheWellFormed exampleFile)).2⟩

/-! ### Claim theorems for on-disk cache file naming -/

/-- The first diverging character makes a lead-segment test fail, no matter
the common lead `s`. -/
theorem strHasLead_append_ne (s : List Char) (a b : Char) (hab : a ≠ b)
    (ta tb : List Char) : strHasLead (s ++ a :: ta) (s ++ b :: tb) = false := by
  induction s with
  | nil =>
    simp only [List.nil_append, strHasLead, Bool.and_eq_false_iff]
    exact Or.inl (by simpa using hab)
  | cons c cs ih =>
    simp only [List.cons_append, strHasLead, List.append_eq, ih, Bool.and_false]

/-- C5: refuted at a concrete input.  The claim says every staging buffer is
first written to a temporary file *inside* the cache directory at
`<dir>/<basename>.<uuid>.httpfs_local_cache`; the code's format string
`"%s%s.%s.httpfs_local_cache"` (disk_cache_reader.cpp:134) omits the `/`, so
with the default cache directory and basename `foo` the temporary file is the
sibling path `/tmp/duckdb_cache_httpfs_cachefoo.<uuid>.httpfs_local_cache`,
outside the cache directory. -/
theorem C5_temp_file_path_bug :
    localTempCacheFile "/tmp/duckdb_cache_httpfs_cache" "foo" "u0"
      = "/tmp/duckdb_cache_httpfs_cachefoo.u0.httpfs_local_cache" ∧
    localTempCacheFile "/tmp/duckdb_cache_httpfs_cache" "foo" "u0"
      ≠ specTempCacheFile "/tmp/duckdb_cache_httpfs_cache" "foo" "u0" ∧
    strHasLead "/tmp/duckdb_cache_httpfs_cache/".data
      (localTempCacheFile "/tmp/duckdb_cache_httpfs_cache" "foo" "u0").data = false := by
  refine ⟨by decide, by decide, by decide⟩

/-- C6: refuted for every input.  `ClearCache(fname)` removes the files whose
name starts with `GetLocalCacheFilePrefix`'s `<sha256>.<basename>` (a dot
separator, disk_cache_reader.cpp:113), but every canonical cache file is
named `<sha256>-<basename>-<start>-<size>` (dash separators,
disk_cache_reader.cpp:78), so the filter never matches and no cache file of
`fname` is ever removed; concretely, a listing holding exactly the cache file
of block `(0, 5)` of a file `foo` survives `ClearCache("foo")` unchanged. -/
theorem C6_clear_cache_by_name_removes_nothing :
    (∀ shaHex fname : String, ∀ startOffset bytesToRead : Nat,
      strHasLead (GetLocalCacheFilePfx shaHex fname).data
        (localCacheFileBasename shaHex fname startOffset bytesToRead).data = false) ∧
    clearCacheSurvivors [localCacheFileBasename "6i5k" "foo" 0 5] "6i5k" "foo"
      = [localCacheFileBasename "6i5k" "foo" 0 5] := by
  constructor
  · intro shaHex fname startOffset bytesToRead
    have h : (GetLocalCacheFilePfx shaHex fname).data
        = shaHex.data ++ Char.ofNat 46 :: fname.data := by
      simp [GetLocalCacheFilePfx, String.data_append]
    have h2 : (localCacheFileBasename shaHex fname startOffset bytesToRead).data
        = shaHex.data ++ Char.ofNat 45 :: (fname.data
            ++ ("-" ++ toString startOffset ++ "-" ++ toString bytesToRead).data) := by
      simp [localCacheFileBasename, String.data_append]
    rw [h, h2]
    exact strHasLead_append_ne _ _ _ (by decide) _ _
  · decide

/-! ### Association-list lemmas for the shared cache -/

theorem findEntry_setEntry_self {K V : Type} [DecidableEq K]
    (m : List (K × SEntry V)) (k : K) (e : SEntry V) :
    findEntry (setEntry m k e) k = some e := by
  induction m with
  | nil => simp [setEntry, findEntry]
  | cons kd rest ih =>
    obtain ⟨k0, e0⟩ := kd
    by_cases h : k0 = k
    · subst h
      rw [setEntry, if_pos rfl, findEntry, if_pos rfl]
    · rw [setEntry, if_neg h, findEntry, if_neg h]
      exact ih

theorem findEntry_setEntry_ne {K V : Type} [DecidableEq K]
    (m : List (K × SEntry V)) (k k2 : K) (e : SEntry V) (hne : ¬ k = k2) :
    findEntry (setEntry m k e) k2 = findEntry m k2 := by
  induction m with
  | nil => simp [setEntry, findEntry, hne]
  | cons kd rest ih =>
    obtain ⟨k0, e0⟩ := kd
    by_cases h : k0 = k
    · subst h
      rw [setEntry, if_pos rfl]
      simp only [findEntry]
      rw [if_neg hne, if_neg hne]
    · rw [setEntry, if_neg h]
      simp only [findEntry, ih]

theorem mem_keys_setEntry {K V : Type} [DecidableEq K]
    (m : List (K × SEntry V)) (k : K) (e : SEntry V) (x : K)
    (hmem : x ∈ (setEntry m k e).map Prod.fst) :
    x ∈ m.map Prod.fst ∨ x = k := by
  induction m with
  | nil =>
    simp only [setEntry, List.map_cons, List.map_nil, List.mem_singleton] at hmem
    exact Or.inr hmem
  | cons kd rest ih =>
    obtain ⟨k0, e0⟩ := kd
    by_cases h0 : k0 = k
    · subst h0
      rw [setEntry, if_pos rfl] at hmem
      exact Or.inl (by simpa using hmem)
    · rw [setEntry, if_neg h0] at hmem
      simp only [List.map_cons, List.mem_cons] at hmem ⊢
      rcases hmem with h | h
      · exact Or.inl (Or.inl h)
      · rcases ih h with h2 | h2
        · exact Or.inl (Or.inr h2)
        · exact Or.inr h2

theorem keys_setEntry_nodup {K V : Type} [DecidableEq K]
    (m : List (K × SEntry V)) (k : K) (e : SEntry V)
    (h : (m.map Prod.fst).Nodup) : ((setEntry m k e).map Prod.fst).Nodup := by
  induction m with
  | nil => simp [setEntry]
  | cons kd rest ih =>
    obtain ⟨k0, e0⟩ := kd
    simp only [List.map_cons, List.nodup_cons] at h
    by_cases hk : k0 = k
    · subst hk
      rw [setEntry, if_pos rfl]
      simp only [List.map_cons, List.nodup_cons]
      exact h
    · rw [setEntry, if_neg hk]
      simp only [List.map_cons, List.nodup_cons]
      refine ⟨fun hmem => ?_, ih h.2⟩
      rcases mem_keys_setEntry rest k e k0 hmem with h2 | h2
      · exact h.1 h2
      · exact hk h2

theorem findEntry_eq_none {K V : Type} [DecidableEq K]
    (m : List (K × SEntry V)) (k : K) (h : ¬ k ∈ m.map Prod.fst) :
    findEntry m k = none := by
  induction m with
  | nil => rfl
  | cons kd rest ih =>
    obtain ⟨k0, e0⟩ := kd
    simp only [List.map_cons, List.mem_cons, not_or] at h
    rw [findEntry, if_neg (fun hh => h.1 hh.symm)]
    exact ih h.2

theorem findEntry_eraseEntry_self {K V : Type} [DecidableEq K]
    (m : List (K × SEntry V)) (k : K) (h : (m.map Prod.fst).Nodup) :
    findEntry (eraseEntry m k) k = none := by
  induction m with
  | nil => rfl
  | cons kd rest ih =>
    obtain ⟨k0, e0⟩ := kd
    simp only [List.map_cons, List.nodup_cons] at h
    by_cases hk : k0 = k
    · subst hk
      rw [eraseEntry, if_pos rfl]
      exact findEntry_eq_none rest k0 (fun hm => h.1 hm)
    · rw [eraseEntry, if_neg hk, findEntry, if_neg hk]
      exact ih h.2

/-- C3 counterexample: the claim says a put that would exceed capacity evicts
the least-recently-used entry.  With `max_entries = 2` and distinct keys
`{1, 2}` the third put (an overwrite of key 1) must not evict at all — and
if anything were evicted, LRU order would pick key 2.  The code instead
erases key 1's own just-refreshed entry (the overwrite left a stale list
node for key 1 at the back), so `get 1` misses while `get 2` still hits and
only one entry remains. -/
theorem C3_counterexample :
    (c3State.get 1 3).1 = none ∧ (c3State.get 2 3).1 = some 20 ∧
    c3State.entry_map.length = 1 := by decide

/-- C4 counterexample: the claim says the key list and entry map stay
consistent — one live list node per map entry.  After `put 1 10` then
`put 1 20` (an overwrite) the map holds one entry but the list holds two
nodes for key 1: the overwrite never unlinks the replaced entry's node. -/
theorem C4_counterexample :
    c4State.entry_map.length = 1 ∧ c4State.lru_list.length = 2 ∧
    c4State.lru_list = [(1, 1), (0, 1)] := by decide

/-- C4 amended: `put(k, v)` inserts a fresh node at the MRU end and
overwrites the map entry for `k` — afterwards (provided the put does not
overflow capacity) the map holds exactly one entry for `k`, its value is
`v`, and a later `get k` within TTL returns `v`; but the key list is left
with any superseded node for `k` still linked: the list always grows by one
node, so after an overwrite it holds one more node than the map. -/
theorem C4_put_overwrites {K V : Type} [DecidableEq K] (c : SharedLru K V) (k : K)
    (v : V) (now now2 : Nat)
    (hcap : c.max_entries = 0 ∨ c.lru_list.length + 1 ≤ c.max_entries)
    (hfresh : c.timeout_millisec = 0 ∨ now2 - now ≤ c.timeout_millisec)
    (hkeys : (c.entry_map.map Prod.fst).Nodup) :
    findEntry (c.put k v now).entry_map k = some ⟨v, now, c.next_id⟩ ∧
    ((c.put k v now).entry_map.map Prod.fst).Nodup ∧
    ((c.put k v now).get k now2).1 = some v ∧
    (c.put k v now).lru_list = (c.next_id, k) :: c.lru_list := by
  have hcond : ¬ (0 < c.max_entries ∧
      c.max_entries < ((c.next_id, k) :: c.lru_list).length) := by
    intro hx
    rcases hcap with h | h <;> simp only [List.length_cons] at hx <;> omega
  have hput : c.put k v now =
      { c with lru_list := (c.next_id, k) :: c.lru_list,
               entry_map := setEntry c.entry_map k ⟨v, now, c.next_id⟩,
               next_id := c.next_id + 1 } := by
    simp only [SharedLru.put, if_neg hcond]
  rw [hput]
  refine ⟨findEntry_setEntry_self c.entry_map k _,
    keys_setEntry_nodup c.entry_map k _ hkeys, ?_, rfl⟩
  show (SharedLru.get _ k now2).1 = some v
  rw [SharedLru.get]
  simp only [findEntry_setEntry_self c.entry_map k _]
  rw [if_neg (by intro hx; rcases hfresh with h | h <;> omega)]

/-- Witness for the amended C4: capacity-3 cache already holding key 1,
overwritten with value 7 at t=10, looked up at t=50 under TTL 100. -/
theorem C4_put_overwrites_witness :
    ((((SharedLru.mkEmpty Nat Nat 3 100).put 1 5 0).max_entries = 0 ∨
        ((SharedLru.mkEmpty Nat Nat 3 100).put 1 5 0).lru_list.length + 1 ≤
          ((SharedLru.mkEmpty Nat Nat 3 100).put 1 5 0).max_entries) ∧
      (((SharedLru.mkEmpty Nat Nat 3 100).put 1 5 0).timeout_millisec = 0 ∨
        50 - 10 ≤ ((SharedLru.mkEmpty Nat Nat 3 100).put 1 5 0).timeout_millisec) ∧
      ((((SharedLru.mkEmpty Nat Nat 3 100).put 1 5 0).entry_map.map Prod.fst).Nodup)) ∧
    (findEntry (((SharedLru.mkEmpty Nat Nat 3 100).put 1 5 0).put 1 7 10).entry_map 1 =
        some ⟨7, 10, ((SharedLru.mkEmpty Nat Nat 3 100).put 1 5 0).next_id⟩ ∧
      ((((SharedLru.mkEmpty Nat Nat 3 100).put 1 5 0).put 1 7 10).entry_map.map
          Prod.fst).Nodup ∧
      ((((SharedLru.mkEmpty Nat Nat 3 100).put 1 5 0).put 1 7 10).get 1 50).1 = some 7 ∧
      (((SharedLru.mkEmpty Nat Nat 3 100).put 1 5 0).put 1 7 10).lru_list =
        (((SharedLru.mkEmpty Nat Nat 3 100).put 1 5 0).next_id, 1) ::
          ((SharedLru.mkEmpty Nat Nat 3 100).put 1 5 0).lru_list) :=
  ⟨⟨by decide, by decide, by decide⟩,
    C4_put_overwrites ((SharedLru.mkEmpty Nat Nat 3 100).put 1 5 0) 1 7 10 50
      (by decide) (by decide) (by decide)⟩

/-! ### Association-list lemmas for the multi cache -/

theorem findDeque_updateDeque_self {K V : Type} [DecidableEq K]
    (m : List (K × List (MEntry V))) (k : K) (d2 : List (MEntry V))
    (h : ∃ d, findDeque m k = some d) :
    findDeque (updateDeque m k d2) k = some d2 := by
  induction m with
  | nil => simp [findDeque] at h
  | cons kd rest ih =>
    obtain ⟨k0, d0⟩ := kd
    by_cases hk : k0 = k
    · subst hk
      rw [updateDeque, if_pos rfl, findDeque, if_pos rfl]
    · rw [findDeque, if_neg hk] at h
      rw [updateDeque, if_neg hk, findDeque, if_neg hk]
      exact ih h

theorem keys_updateDeque {K V : Type} [DecidableEq K]
    (m : List (K × List (MEntry V))) (k : K) (d2 : List (MEntry V)) :
    (updateDeque m k d2).map Prod.fst = m.map Prod.fst := by
  induction m with
  | nil => rfl
  | cons kd rest ih =>
    obtain ⟨k0, d0⟩ := kd
    by_cases hk : k0 = k
    · subst hk
      rw [updateDeque, if_pos rfl]
      simp
    · rw [updateDeque, if_neg hk]
      simp only [List.map_cons, ih]

theorem findDeque_eq_none {K V : Type} [DecidableEq K]
    (m : List (K × List (MEntry V))) (k : K) (h : ¬ k ∈ m.map Prod.fst) :
    findDeque m k = none := by
  induction m with
  | nil => rfl
  | cons kd rest ih =>
    obtain ⟨k0, d0⟩ := kd
    simp only [List.map_cons, List.mem_cons, not_or] at h
    rw [findDeque, if_neg (fun hh => h.1 hh.symm)]
    exact ih h.2

theorem findDeque_eraseDequeKey_self {K V : Type} [DecidableEq K]
    (m : List (K × List (MEntry V))) (k : K) (h : (m.map Prod.fst).Nodup) :
    findDeque (eraseDequeKey m k) k = none := by
  induction m with
  | nil => rfl
  | cons kd rest ih =>
    obtain ⟨k0, d0⟩ := kd
    simp only [List.map_cons, List.nodup_cons] at h
    by_cases hk : k0 = k
    · subst hk
      rw [eraseDequeKey, if_pos rfl]
      exact findDeque_eq_none rest k0 (fun hm => h.1 hm)
    · rw [eraseDequeKey, if_neg hk, findDeque, if_neg hk]
      exact ih h.2

theorem eraseDequeKey_sublist {K V : Type} [DecidableEq K]
    (m : List (K × List (MEntry V))) (k : K) :
    List.Sublist (eraseDequeKey m k) m := by
  induction m with
  | nil => exact List.Sublist.refl []
  | cons kd rest ih =>
    obtain ⟨k0, d0⟩ := kd
    by_cases hk : k0 = k
    · subst hk
      rw [eraseDequeKey, if_pos rfl]
      exact List.sublist_cons_self _ _
    · rw [eraseDequeKey, if_neg hk]
      exact List.Sublist.cons₂ _ ih

theorem keys_eraseDequeKey_nodup {K V : Type} [DecidableEq K]
    (m : List (K × List (MEntry V))) (k : K) (h : (m.map Prod.fst).Nodup) :
    ((eraseDequeKey m k).map Prod.fst).Nodup :=
  h.sublist ((eraseDequeKey_sublist m k).map Prod.fst)

/-- **C2.** Bug evidence for the exclusive multi cache's stale handling
(`GetAndPop`, hpp:91-125).  First conjunct: on `c2UBState` (key 1 holds one
entry expired at t=201; key 2 holds another entry) the lookup of key 1
deletes key 1's last expired entry — erasing its map node — and then, because
the loop guard `cur_entries_num > 0` (hpp:104) still sees key 2's entry,
re-reads the front of the destroyed deque: the model reports the undefined
access as `none` where the claim demands removal-plus-absence.  Second
conjunct: absence is reported cleanly only when the stale key's entries were
the whole cache (`c2SoleState`).  Third conjunct: when a fresh entry remains
behind the expired one (`c2State`), the lookup removes the expired entry but
returns the fresh value instead of reporting absence.  The final conjuncts
pin the TTL arithmetic of the scenario. -/
theorem C2_getandpop_stale_paths :
    c2UBState.getAndPop 1 201 = none ∧
    (c2SoleState.getAndPop 1 201).map (fun r => r.1) = some ([10], none) ∧
    (c2State.getAndPop 1 201).map (fun r => r.1) = some ([10], some 20) ∧
    c2State.timeout_millisec = 100 ∧ 100 < 201 - 0 ∧ 201 - 150 ≤ 100 := by
  decide

theorem findEntry_mem {K V : Type} [DecidableEq K] (m : List (K × SEntry V)) (k : K)
    (e : SEntry V) (h : findEntry m k = some e) : (k, e) ∈ m := by
  induction m with
  | nil => exact absurd h (by simp [findEntry])
  | cons kd rest ih =>
    obtain ⟨k0, e0⟩ := kd
    rw [findEntry] at h
    by_cases hk : k0 = k
    · subst hk
      rw [if_pos rfl] at h
      cases h
      exact List.mem_cons_self _ _
    · rw [if_neg hk] at h
      exact List.mem_cons_of_mem _ (ih h)

theorem mem_setEntry {K V : Type} [DecidableEq K] (m : List (K × SEntry V)) (k : K)
    (e : SEntry V) (hN : (m.map Prod.fst).Nodup) (ke : K × SEntry V)
    (h : ke ∈ setEntry m k e) : ke = (k, e) ∨ (ke ∈ m ∧ ¬ ke.1 = k) := by
  induction m with
  | nil =>
    rw [setEntry] at h
    exact Or.inl (by simpa using h)
  | cons kd rest ih =>
    obtain ⟨k0, e0⟩ := kd
    simp only [List.map_cons, List.nodup_cons] at hN
    by_cases hk : k0 = k
    · subst hk
      rw [setEntry, if_pos rfl] at h
      rcases List.mem_cons.mp h with h2 | h2
      · exact Or.inl h2
      · refine Or.inr ⟨List.mem_cons_of_mem _ h2, fun hkk => ?_⟩
        exact hN.1 (hkk ▸ List.mem_map_of_mem Prod.fst h2)
    · rw [setEntry, if_neg hk] at h
      rcases List.mem_cons.mp h with h2 | h2
      · exact Or.inr ⟨h2 ▸ List.mem_cons_self _ _, h2 ▸ hk⟩
      · rcases ih hN.2 h2 with h3 | h3
        · exact Or.inl h3
        · exact Or.inr ⟨List.mem_cons_of_mem _ h3.1, h3.2⟩

theorem eraseEntry_sublist {K V : Type} [DecidableEq K] (m : List (K × SEntry V))
    (k : K) : List.Sublist (eraseEntry m k) m := by
  induction m with
  | nil => exact List.Sublist.refl []
  | cons kd rest ih =>
    obtain ⟨k0, e0⟩ := kd
    by_cases hk : k0 = k
    · subst hk
      rw [eraseEntry, if_pos rfl]
      exact List.sublist_cons_self _ _
    · rw [eraseEntry, if_neg hk]
      exact List.Sublist.cons₂ _ ih

theorem mem_eraseEntry {K V : Type} [DecidableEq K] (m : List (K × SEntry V)) (k : K)
    (hN : (m.map Prod.fst).Nodup) (ke : K × SEntry V) (h : ke ∈ eraseEntry m k) :
    ke ∈ m ∧ ¬ ke.1 = k := by
  induction m with
  | nil => exact absurd h (by simp [eraseEntry])
  | cons kd rest ih =>
    obtain ⟨k0, e0⟩ := kd
    simp only [List.map_cons, List.nodup_cons] at hN
    by_cases hk : k0 = k
    · subst hk
      rw [eraseEntry, if_pos rfl] at h
      refine ⟨List.mem_cons_of_mem _ h, fun hkk => ?_⟩
      exact hN.1 (hkk ▸ List.mem_map_of_mem Prod.fst h)
    · rw [eraseEntry, if_neg hk] at h
      rcases List.mem_cons.mp h with h2 | h2
      · exact ⟨h2 ▸ List.mem_cons_self _ _, h2 ▸ hk⟩
      · obtain ⟨h3, h4⟩ := ih hN.2 h2
        exact ⟨List.mem_cons_of_mem _ h3, h4⟩

theorem spliceToFront_perm {K : Type} (l : List (Nat × K)) (nid : Nat) :
    List.Perm (spliceToFront l nid) l := by
  induction l with
  | nil => exact List.Perm.refl []
  | cons n rest ih =>
    rw [spliceToFront]
    by_cases hp : n.1 == nid
    · simp only [@List.find?_cons_of_pos _ (fun m => m.1 == nid) n rest hp,
        @List.eraseP_cons_of_pos _ n rest (fun m => m.1 == nid) hp]
      exact List.Perm.refl _
    · simp only [@List.find?_cons_of_neg _ (fun m => m.1 == nid) n rest hp]
      rw [spliceToFront] at ih
      cases hfind : List.find? (fun m => m.1 == nid) rest with
      | none =>
        simp only [hfind]
        exact List.Perm.refl _
      | some n2 =>
        simp only [hfind]
        simp only [hfind] at ih
        rw [@List.eraseP_cons_of_neg _ n rest (fun m => m.1 == nid) hp]
        exact (List.Perm.swap n n2 _).trans (List.Perm.cons n ih)

theorem mem_eraseP_of_ne {α : Type} (p : α → Bool) (l : List α) (a : α)
    (ha : a ∈ l) (hpa : p a = false) : a ∈ l.eraseP p := by
  induction l with
  | nil => exact absurd ha (by simp)
  | cons b rest ih =>
    by_cases hb : p b
    · rw [List.eraseP_cons_of_pos hb]
      rcases List.mem_cons.mp ha with h | h
      · subst h
        rw [hb] at hpa
        exact absurd hpa (by simp)
      · exact h
    · rw [List.eraseP_cons_of_neg hb]
      rcases List.mem_cons.mp ha with h | h
      · exact h ▸ List.mem_cons_self _ _
      · exact List.mem_cons_of_mem _ (ih h)

theorem keyUnique {K V : Type} (l : List (K × V)) (hN : (l.map Prod.fst).Nodup)
    (x y : K × V) (hx : x ∈ l) (hy : y ∈ l) (hxy : x.1 = y.1) : x = y := by
  induction l with
  | nil => exact absurd hx (by simp)
  | cons a rest ih =>
    simp only [List.map_cons, List.nodup_cons] at hN
    rcases List.mem_cons.mp hx with h1 | h1 <;> rcases List.mem_cons.mp hy with h2 | h2
    · rw [h1, h2]
    · exfalso
      apply hN.1
      have hay : a.1 = y.1 := by rw [← h1]; exact hxy
      rw [hay]
      exact List.mem_map_of_mem Prod.fst h2
    · exfalso
      apply hN.1
      have hax : a.1 = x.1 := by rw [← h2]; exact hxy.symm
      rw [hax]
      exact List.mem_map_of_mem Prod.fst h1
    · exact ih hN.2 h1 h2

/-- Every well-formed shared cache has no more map entries than list nodes. -/
theorem swf_entry_le_list {K V : Type} (c : SharedLru K V) (hwf : SWf c) :
    c.entry_map.length ≤ c.lru_list.length := by
  obtain ⟨hkeys, hids, _, hnode⟩ := hwf
  have hlen : c.entry_map.length
      = (c.entry_map.map (fun ke => (ke.2.lru_iterator, ke.1))).length := by
    rw [List.length_map]
  rw [hlen]
  refine List.Subperm.length_le (List.Nodup.subperm ?_ ?_)
  · refine List.Nodup.map_on ?_ (hkeys.of_map Prod.fst)
    intro x hx y hy hfxy
    have h1 : x.2.lru_iterator = y.2.lru_iterator := congrArg Prod.fst hfxy
    have h2 : x.1 = y.1 := congrArg Prod.snd hfxy
    exact keyUnique c.entry_map hkeys x y hx hy h2
  · intro n hn
    obtain ⟨ke, hke, rfl⟩ := List.mem_map.mp hn
    exact hnode ke hke

theorem swf_put {K V : Type} [DecidableEq K] (c : SharedLru K V) (k : K) (v : V)
    (now : Nat) (hwf : SWf c) (hb : SBound c) :
    SWf (c.put k v now) ∧ SBound (c.put k v now) := by
  obtain ⟨hkeys, hids, hlt, hnode⟩ := hwf
  have hfreshid : ¬ c.next_id ∈ c.lru_list.map Prod.fst := by
    intro hmem
    obtain ⟨n, hn, hn2⟩ := List.mem_map.mp hmem
    exact absurd (hn2 ▸ hlt n hn) (by omega)
  have hids1 : (((c.next_id, k) :: c.lru_list).map Prod.fst).Nodup := by
    simp only [List.map_cons, List.nodup_cons]
    exact ⟨hfreshid, hids⟩
  have hkeys1 : ((setEntry c.entry_map k ⟨v, now, c.next_id⟩).map Prod.fst).Nodup :=
    keys_setEntry_nodup c.entry_map k _ hkeys
  have hlt1 : ∀ n ∈ (c.next_id, k) :: c.lru_list, n.1 < c.next_id + 1 := by
    intro n hn
    rcases List.mem_cons.mp hn with h | h
    · rw [h]
      omega
    · have := hlt n h
      omega
  have hnode1 : ∀ ke ∈ setEntry c.entry_map k ⟨v, now, c.next_id⟩,
      (ke.2.lru_iterator, ke.1) ∈ (c.next_id, k) :: c.lru_list := by
    intro ke hke
    rcases mem_setEntry c.entry_map k _ hkeys ke hke with h | h
    · rw [h]
      exact List.mem_cons_self _ _
    · exact List.mem_cons_of_mem _ (hnode ke h.1)
  rw [SharedLru.put]
  by_cases hcond : 0 < c.max_entries ∧
      c.max_entries < ((c.next_id, k) :: c.lru_list).length
  · rw [if_pos hcond]
    have hne : ((c.next_id, k) :: c.lru_list) ≠ [] := List.cons_ne_nil _ _
    rw [List.getLast?_eq_getLast _ hne]
    set stale := ((c.next_id, k) :: c.lru_list).getLast hne with hstale
    set list1 := (c.next_id, k) :: c.lru_list with hlist1
    set map1 := setEntry c.entry_map k ⟨v, now, c.next_id⟩ with hmap1
    have hsplit : list1.dropLast ++ [stale] = list1 :=
      List.dropLast_append_getLast hne
    refine ⟨⟨?_, ?_, ?_, ?_⟩, ?_⟩
    · exact hkeys1.sublist ((eraseEntry_sublist map1 stale.2).map Prod.fst)
    · exact hids1.sublist ((List.dropLast_sublist list1).map Prod.fst)
    · intro n hn
      exact hlt1 n ((List.dropLast_sublist list1).subset hn)
    · intro ke hke
      obtain ⟨hke1, hke2⟩ := mem_eraseEntry map1 stale.2 hkeys1 ke hke
      have hmem : (ke.2.lru_iterator, ke.1) ∈ list1 := hnode1 ke hke1
      rw [← hsplit] at hmem
      rcases List.mem_append.mp hmem with h | h
      · exact h
      · exfalso
        have : (ke.2.lru_iterator, ke.1) = stale := by simpa using h
        exact hke2 (by rw [← this])
    · intro _
      have : list1.dropLast.length = c.lru_list.length := by
        rw [List.length_dropLast, hlist1]
        simp
      simp only [this]
      have := hb hcond.1
      omega
  · rw [if_neg hcond]
    refine ⟨⟨hkeys1, hids1, hlt1, hnode1⟩, ?_⟩
    intro hpos
    have hpos2 : 0 < c.max_entries := hpos
    show ((c.next_id, k) :: c.lru_list).length ≤ c.max_entries
    simp only [List.length_cons] at hcond ⊢
    omega

theorem swf_deleteImpl {K V : Type} [DecidableEq K] (c : SharedLru K V) (k : K)
    (e : SEntry V) (hfind : findEntry c.entry_map k = some e) (hwf : SWf c) :
    SWf { c with lru_list := eraseNode c.lru_list e.lru_iterator,
                 entry_map := eraseEntry c.entry_map k } ∧
    (eraseNode c.lru_list e.lru_iterator).length ≤ c.lru_list.length := by
  obtain ⟨hkeys, hids, hlt, hnode⟩ := hwf
  refine ⟨⟨?_, ?_, ?_, ?_⟩, (List.eraseP_sublist _).length_le⟩
  · exact hkeys.sublist ((eraseEntry_sublist c.entry_map k).map Prod.fst)
  · exact hids.sublist ((List.eraseP_sublist _).map Prod.fst)
  · intro n hn
    exact hlt n ((List.eraseP_sublist _).subset hn)
  · intro ke hke
    obtain ⟨hke1, hke2⟩ := mem_eraseEntry c.entry_map k hkeys ke hke
    have hmem : (ke.2.lru_iterator, ke.1) ∈ c.lru_list := hnode ke hke1
    refine mem_eraseP_of_ne _ c.lru_list _ hmem ?_
    simp only [beq_eq_false_iff_ne, ne_eq]
    intro hiter
    have hemem : (e.lru_iterator, k) ∈ c.lru_list :=
      hnode (k, e) (findEntry_mem c.entry_map k e hfind)
    have := keyUnique c.lru_list hids _ _ hmem (hiter ▸ hemem) (by rw [hiter])
    exact hke2 (congrArg Prod.snd this)

theorem swf_splice {K V : Type} (c : SharedLru K V) (nid : Nat) (hwf : SWf c) :
    SWf { c with lru_list := spliceToFront c.lru_list nid } ∧
    (spliceToFront c.lru_list nid).length = c.lru_list.length := by
  obtain ⟨hkeys, hids, hlt, hnode⟩ := hwf
  have hperm := spliceToFront_perm c.lru_list nid
  refine ⟨⟨hkeys, ?_, ?_, ?_⟩, hperm.length_eq⟩
  · exact ((hperm.map Prod.fst).nodup_iff).mpr hids
  · intro n hn
    exact hlt n (hperm.mem_iff.mp hn)
  · intro ke hke
    exact hperm.mem_iff.mpr (hnode ke hke)

theorem swf_applyOp {K V : Type} [DecidableEq K] (c : SharedLru K V) (op : SOp K V)
    (hwf : SWf c) (hb : SBound c) :
    SWf (c.applyOp op) ∧ SBound (c.applyOp op) := by
  cases op with
  | put k v t => exact swf_put c k v t hwf hb
  | get k t =>
    show SWf (c.get k t).2 ∧ SBound (c.get k t).2
    rw [SharedLru.get]
    cases hfind : findEntry c.entry_map k with
    | none => exact ⟨hwf, hb⟩
    | some e =>
      simp only
      by_cases hex : 0 < c.timeout_millisec ∧ c.timeout_millisec < t - e.timestamp
      · rw [if_pos hex]
        obtain ⟨hwf2, hlen⟩ := swf_deleteImpl c k e hfind hwf
        refine ⟨hwf2, fun hpos => ?_⟩
        have := hb hpos
        simp only at *
        omega
      · rw [if_neg hex]
        obtain ⟨hwf2, hlen⟩ := swf_splice c e.lru_iterator hwf
        refine ⟨hwf2, fun hpos => ?_⟩
        have := hb hpos
        simp only at *
        omega
  | del k =>
    show SWf (c.del k).2 ∧ SBound (c.del k).2
    rw [SharedLru.del]
    cases hfind : findEntry c.entry_map k with
    | none => exact ⟨hwf, hb⟩
    | some e =>
      simp only
      obtain ⟨hwf2, hlen⟩ := swf_deleteImpl c k e hfind hwf
      refine ⟨hwf2, fun hpos => ?_⟩
      have := hb hpos
      simp only at *
      omega
  | clear =>
    show SWf { c with lru_list := [], entry_map := [] } ∧
      SBound { c with lru_list := [], entry_map := [] }
    refine ⟨⟨by simp, by simp, ?_, ?_⟩, fun _ => ?_⟩
    · intro n hn
      simp at hn
    · intro ke hke
      simp at hke
    · show (0 : Nat) ≤ c.max_entries
      omega

theorem swf_runOps {K V : Type} [DecidableEq K] (ops : List (SOp K V))
    (c : SharedLru K V) (hwf : SWf c) (hb : SBound c) :
    SWf (c.runOps ops) ∧ SBound (c.runOps ops) := by
  induction ops generalizing c with
  | nil => exact ⟨hwf, hb⟩
  | cons op rest ih =>
    obtain ⟨hwf1, hb1⟩ := swf_applyOp c op hwf hb
    exact ih (c.applyOp op) hwf1 hb1

theorem flattenPairs_cons {K V : Type} (k : K) (d : List (MEntry V))
    (m : List (K × List (MEntry V))) :
    flattenPairs ((k, d) :: m)
      = d.map (fun e => (e.lru_iterator, k)) ++ flattenPairs m := rfl

theorem flatten_appendDeque {K V : Type} [DecidableEq K]
    (m : List (K × List (MEntry V))) (k : K) (e : MEntry V) :
    List.Perm (flattenPairs (appendDeque m k e))
      ((e.lru_iterator, k) :: flattenPairs m) := by
  induction m with
  | nil => simp [appendDeque, flattenPairs]
  | cons kd rest ih =>
    obtain ⟨k0, d0⟩ := kd
    by_cases hk : k0 = k
    · subst hk
      rw [appendDeque, if_pos rfl, flattenPairs_cons, flattenPairs_cons, List.map_append,
        List.append_assoc]
      simp only [List.map_cons, List.map_nil, List.singleton_append]
      exact List.perm_middle
    · rw [appendDeque, if_neg hk, flattenPairs_cons, flattenPairs_cons]
      exact (List.Perm.append_left _ ih).trans List.perm_middle

theorem mem_keys_of_flatten {K V : Type} (m : List (K × List (MEntry V))) (i : Nat)
    (k : K) (h : (i, k) ∈ flattenPairs m) : k ∈ m.map Prod.fst := by
  induction m with
  | nil => exact absurd h (by simp [flattenPairs])
  | cons kd rest ih =>
    obtain ⟨k0, d0⟩ := kd
    rw [flattenPairs_cons] at h
    rcases List.mem_append.mp h with h2 | h2
    · obtain ⟨e, _, he2⟩ := List.mem_map.mp h2
      simp only [List.map_cons, List.mem_cons]
      exact Or.inl (congrArg Prod.snd he2).symm
    · exact List.mem_cons_of_mem _ (ih h2)

theorem flatten_mem_findDeque {K V : Type} [DecidableEq K]
    (m : List (K × List (MEntry V))) (i : Nat) (k : K)
    (hN : (m.map Prod.fst).Nodup) (h : (i, k) ∈ flattenPairs m) :
    ∃ e rest, findDeque m k = some (e :: rest) := by
  induction m with
  | nil => exact absurd h (by simp [flattenPairs])
  | cons kd rest ih =>
    obtain ⟨k0, d0⟩ := kd
    simp only [List.map_cons, List.nodup_cons] at hN
    rw [flattenPairs_cons] at h
    rcases List.mem_append.mp h with h2 | h2
    · obtain ⟨e, he, he2⟩ := List.mem_map.mp h2
      have hk : k0 = k := (congrArg Prod.snd he2)
      subst hk
      rw [findDeque, if_pos rfl]
      cases d0 with
      | nil => exact absurd he (by simp)
      | cons e0 d0r => exact ⟨e0, d0r, rfl⟩
    · have hk : ¬ k0 = k := by
        intro hkk
        exact hN.1 (hkk ▸ mem_keys_of_flatten rest i k h2)
      rw [findDeque, if_neg hk]
      exact ih hN.2 h2

theorem eraseNode_perm {K : Type} (l : List (Nat × K)) (i : Nat) (k : K)
    (hids : (l.map Prod.fst).Nodup) (h : (i, k) ∈ l) :
    List.Perm l ((i, k) :: eraseNode l i) := by
  induction l with
  | nil => exact absurd h (by simp)
  | cons n rest ih =>
    simp only [List.map_cons, List.nodup_cons] at hids
    by_cases hn : n.1 = i
    · have hnk : n = (i, k) := by
        rcases List.mem_cons.mp h with h2 | h2
        · rw [h2]
        · exfalso
          apply hids.1
          rw [hn]
          exact List.mem_map_of_mem Prod.fst h2
      rw [eraseNode, List.eraseP_cons_of_pos (by simpa using hn), hnk]
    · have hmem : (i, k) ∈ rest := by
        rcases List.mem_cons.mp h with h2 | h2
        · exact absurd (congrArg Prod.fst h2.symm) hn
        · exact h2
      rw [eraseNode, List.eraseP_cons_of_neg (by simpa using hn)]
      have hrec := ih hids.2 hmem
      exact (List.Perm.cons n hrec).trans (List.Perm.swap (i, k) n _)

theorem mem_updateDeque {K V : Type} [DecidableEq K] (m : List (K × List (MEntry V)))
    (k : K) (d2 : List (MEntry V)) (kd : K × List (MEntry V))
    (h : kd ∈ updateDeque m k d2) : kd = (k, d2) ∨ kd ∈ m := by
  induction m with
  | nil => exact absurd h (by simp [updateDeque])
  | cons kd0 rest ih =>
    obtain ⟨k0, d0⟩ := kd0
    by_cases hk : k0 = k
    · subst hk
      rw [updateDeque, if_pos rfl] at h
      rcases List.mem_cons.mp h with h2 | h2
      · exact Or.inl h2
      · exact Or.inr (List.mem_cons_of_mem _ h2)
    · rw [updateDeque, if_neg hk] at h
      rcases List.mem_cons.mp h with h2 | h2
      · exact Or.inr (h2 ▸ List.mem_cons_self _ _)
      · rcases ih h2 with h3 | h3
        · exact Or.inl h3
        · exact Or.inr (List.mem_cons_of_mem _ h3)

/-- Popping a key's front entry removes exactly its `(iterator, key)` pair
from the map-side view. -/
theorem flatten_pop {K V : Type} [DecidableEq K] (m : List (K × List (MEntry V)))
    (k : K) (e : MEntry V) (rest : List (MEntry V))
    (hfind : findDeque m k = some (e :: rest)) :
    List.Perm (flattenPairs m)
      ((e.lru_iterator, k)
        :: flattenPairs (if rest.isEmpty then eraseDequeKey m k
                         else updateDeque m k rest)) := by
  induction m with
  | nil => exact absurd hfind (by simp [findDeque])
  | cons kd m2 ih =>
    obtain ⟨k0, d0⟩ := kd
    by_cases hk : k0 = k
    · subst hk
      rw [findDeque, if_pos rfl] at hfind
      cases hfind
      cases rest with
      | nil =>
        rw [if_pos List.isEmpty_nil, eraseDequeKey, if_pos rfl, flattenPairs_cons]
        exact List.Perm.refl _
      | cons e2 rest2 =>
        rw [if_neg (by simp), updateDeque, if_pos rfl, flattenPairs_cons,
          flattenPairs_cons]
        exact List.Perm.refl _
    · rw [findDeque, if_neg hk] at hfind
      have hrec := ih hfind
      cases hre : rest.isEmpty with
      | true =>
        rw [hre, if_pos rfl] at hrec
        rw [if_pos rfl, eraseDequeKey, if_neg hk, flattenPairs_cons,
          flattenPairs_cons]
        exact (List.Perm.append_left _ hrec).trans List.perm_middle
      | false =>
        rw [hre, if_neg (by simp)] at hrec
        rw [if_neg (by simp), updateDeque, if_neg hk, flattenPairs_cons,
          flattenPairs_cons]
        exact (List.Perm.append_left _ hrec).trans List.perm_middle

/-- Effect of `DeleteFirstEntry` on the whole well-formed state. -/
theorem mwf_deleteFirstEntry {K V : Type} [DecidableEq K] (c : MultiLru K V) (k : K)
    (e : MEntry V) (rest : List (MEntry V))
    (hfind : findDeque c.entry_map k = some (e :: rest)) (hwf : MWf c) :
    MWf (c.deleteFirstEntry k).2 ∧
    (c.deleteFirstEntry k).2.cur_entries_num = c.cur_entries_num - 1 ∧
    1 ≤ c.cur_entries_num ∧
    (c.deleteFirstEntry k).2.max_entries = c.max_entries ∧
    (c.deleteFirstEntry k).2.timeout_millisec = c.timeout_millisec := by
  obtain ⟨hcur, hperm, hids, hlt, hkeys, hne⟩ := hwf
  have hpop := flatten_pop c.entry_map k e rest hfind
  have hmemflat : (e.lru_iterator, k) ∈ flattenPairs c.entry_map :=
    hpop.symm.mem_iff.mp (List.mem_cons_self _ _)
  have hmemlist : (e.lru_iterator, k) ∈ c.lru_list := hperm.mem_iff.mp hmemflat
  have hlistperm : List.Perm c.lru_list
      ((e.lru_iterator, k) :: eraseNode c.lru_list e.lru_iterator) :=
    eraseNode_perm c.lru_list e.lru_iterator k hids hmemlist
  have hnewperm : List.Perm
      (flattenPairs (if rest.isEmpty then eraseDequeKey c.entry_map k
                     else updateDeque c.entry_map k rest))
      (eraseNode c.lru_list e.lru_iterator) :=
    List.Perm.cons_inv (hpop.symm.trans (hperm.trans hlistperm))
  have hlen : c.lru_list.length = (eraseNode c.lru_list e.lru_iterator).length + 1 := by
    have h1 := hlistperm.length_eq
    simp only [List.length_cons] at h1
    omega
  simp only [MultiLru.deleteFirstEntry, hfind]
  refine ⟨⟨?_, hnewperm, ?_, ?_, ?_, ?_⟩, ?_, ?_, by first | rfl | trivial,
    by first | rfl | trivial⟩
  · simp only [hcur, hlen]
    omega
  · exact hids.sublist ((List.eraseP_sublist _).map Prod.fst)
  · intro n hn
    exact hlt n ((List.eraseP_sublist _).subset hn)
  · cases hre : rest.isEmpty with
    | true =>
      rw [if_pos rfl]
      exact hkeys.sublist ((eraseDequeKey_sublist c.entry_map k).map Prod.fst)
    | false =>
      rw [if_neg (by simp)]
      rw [keys_updateDeque]
      exact hkeys
  · intro kd hkd
    cases hre : rest.isEmpty with
    | true =>
      rw [hre, if_pos rfl] at hkd
      exact hne kd ((eraseDequeKey_sublist c.entry_map k).subset hkd)
    | false =>
      rw [hre, if_neg (by simp)] at hkd
      rcases mem_updateDeque c.entry_map k rest kd hkd with h | h
      · rw [h]
        simp only [ne_eq]
        intro hrnil
        rw [hrnil] at hre
        simp at hre
      · exact hne kd h
  · simp only [hcur, hlen]
  · omega

theorem mem_keys_appendDeque {K V : Type} [DecidableEq K]
    (m : List (K × List (MEntry V))) (k : K) (e : MEntry V) (x : K)
    (hmem : x ∈ (appendDeque m k e).map Prod.fst) :
    x ∈ m.map Prod.fst ∨ x = k := by
  induction m with
  | nil =>
    rw [appendDeque] at hmem
    exact Or.inr (by simpa using hmem)
  | cons kd rest ih =>
    obtain ⟨k0, d0⟩ := kd
    by_cases h0 : k0 = k
    · subst h0
      rw [appendDeque, if_pos rfl] at hmem
      exact Or.inl (by simpa using hmem)
    · rw [appendDeque, if_neg h0] at hmem
      simp only [List.map_cons, List.mem_cons] at hmem ⊢
      rcases hmem with h | h
      · exact Or.inl (Or.inl h)
      · rcases ih h with h2 | h2
        · exact Or.inl (Or.inr h2)
        · exact Or.inr h2

theorem keys_appendDeque_nodup {K V : Type} [DecidableEq K]
    (m : List (K × List (MEntry V))) (k : K) (e : MEntry V)
    (h : (m.map Prod.fst).Nodup) : ((appendDeque m k e).map Prod.fst).Nodup := by
  induction m with
  | nil => simp [appendDeque]
  | cons kd rest ih =>
    obtain ⟨k0, d0⟩ := kd
    simp only [List.map_cons, List.nodup_cons] at h
    by_cases hk : k0 = k
    · subst hk
      rw [appendDeque, if_pos rfl]
      simp only [List.map_cons, List.nodup_cons]
      exact h
    · rw [appendDeque, if_neg hk]
      simp only [List.map_cons, List.nodup_cons]
      refine ⟨fun hmem => ?_, ih h.2⟩
      rcases mem_keys_appendDeque rest k e k0 hmem with h2 | h2
      · exact h.1 h2
      · exact hk h2

theorem ne_appendDeque {K V : Type} [DecidableEq K] (m : List (K × List (MEntry V)))
    (k : K) (e : MEntry V) (h : ∀ kd ∈ m, kd.2 ≠ []) :
    ∀ kd ∈ appendDeque m k e, kd.2 ≠ [] := by
  induction m with
  | nil =>
    intro kd hkd
    rw [appendDeque] at hkd
    rw [show kd = (k, [e]) from by simpa using hkd]
    simp
  | cons kd0 rest ih =>
    obtain ⟨k0, d0⟩ := kd0
    intro kd hkd
    by_cases hk : k0 = k
    · subst hk
      rw [appendDeque, if_pos rfl] at hkd
      rcases List.mem_cons.mp hkd with h2 | h2
      · rw [h2]
        simp
      · exact h kd (List.mem_cons_of_mem _ h2)
    · rw [appendDeque, if_neg hk] at hkd
      rcases List.mem_cons.mp hkd with h2 | h2
      · exact h kd (h2 ▸ List.mem_cons_self _ _)
      · exact ih (fun kd2 hkd2 => h kd2 (List.mem_cons_of_mem _ hkd2)) kd h2

theorem mwf_put {K V : Type} [DecidableEq K] (c : MultiLru K V) (k : K) (v : V)
    (t : Nat) (hwf : MWf c)
    (hb : 0 < c.max_entries → c.cur_entries_num ≤ c.max_entries) :
    MWf (c.put k v t).2 ∧
    (0 < (c.put k v t).2.max_entries →
      (c.put k v t).2.cur_entries_num ≤ (c.put k v t).2.max_entries) ∧
    (c.put k v t).2.max_entries = c.max_entries := by
  obtain ⟨hcur, hperm, hids, hlt, hkeys, hne⟩ := hwf
  have hfreshid : ¬ c.next_id ∈ c.lru_list.map Prod.fst := by
    intro hmem
    obtain ⟨n, hn, hn2⟩ := List.mem_map.mp hmem
    exact absurd (hn2 ▸ hlt n hn) (by omega)
  have hmidwf : MWf
      { c with
        lru_list := (c.next_id, k) :: c.lru_list,
        entry_map := appendDeque c.entry_map k ⟨v, t, c.next_id⟩,
        cur_entries_num := c.cur_entries_num + 1,
        next_id := c.next_id + 1 } := by
    refine ⟨?_, ?_, ?_, ?_, ?_, ?_⟩
    · show c.cur_entries_num + 1 = ((c.next_id, k) :: c.lru_list).length
      simp [hcur]
    · show List.Perm (flattenPairs (appendDeque c.entry_map k ⟨v, t, c.next_id⟩))
        ((c.next_id, k) :: c.lru_list)
      exact (flatten_appendDeque c.entry_map k ⟨v, t, c.next_id⟩).trans
        (List.Perm.cons _ hperm)
    · show (((c.next_id, k) :: c.lru_list).map Prod.fst).Nodup
      simp only [List.map_cons, List.nodup_cons]
      exact ⟨hfreshid, hids⟩
    · intro n hn
      rcases List.mem_cons.mp hn with h | h
      · rw [h]
        show c.next_id < c.next_id + 1
        omega
      · have := hlt n h
        show n.1 < c.next_id + 1
        omega
    · exact keys_appendDeque_nodup c.entry_map k _ hkeys
    · exact ne_appendDeque c.entry_map k _ hne
  rw [MultiLru.put]
  simp only
  by_cases hcond : 0 < c.max_entries ∧ c.max_entries < c.cur_entries_num + 1
  · rw [if_pos hcond]
    have hne2 : ((c.next_id, k) :: c.lru_list) ≠ [] := List.cons_ne_nil _ _
    rw [List.getLast?_eq_getLast _ hne2]
    set mid : MultiLru K V :=
      { c with
        lru_list := (c.next_id, k) :: c.lru_list,
        entry_map := appendDeque c.entry_map k ⟨v, t, c.next_id⟩,
        cur_entries_num := c.cur_entries_num + 1,
        next_id := c.next_id + 1 } with hmid
    set stale := ((c.next_id, k) :: c.lru_list).getLast hne2 with hstale
    have hstalemem : stale ∈ mid.lru_list := by
      rw [hstale]
      exact List.getLast_mem hne2
    have hstaleflat : (stale.1, stale.2) ∈ flattenPairs mid.entry_map :=
      hmidwf.2.1.symm.mem_iff.mp hstalemem
    obtain ⟨e2, rest2, hfind2⟩ := flatten_mem_findDeque mid.entry_map stale.1 stale.2
      hmidwf.2.2.2.2.1 hstaleflat
    obtain ⟨hdwf, hdcur, hdpos, hdmax, _⟩ :=
      mwf_deleteFirstEntry mid stale.2 e2 rest2 hfind2 hmidwf
    refine ⟨hdwf, ?_, ?_⟩
    · intro hpos
      rw [hdcur]
      rw [hdmax] at hpos ⊢
      have hcm : mid.max_entries = c.max_entries := rfl
      rw [hcm] at hpos ⊢
      have : mid.cur_entries_num = c.cur_entries_num + 1 := rfl
      rw [this]
      have := hb hcond.1
      omega
    · rw [hdmax]
  · rw [if_neg hcond]
    refine ⟨hmidwf, ?_, rfl⟩
    intro hpos
    have hpos2 : 0 < c.max_entries := hpos
    show c.cur_entries_num + 1 ≤ c.max_entries
    omega

theorem mwf_evictStaleLoop {K V : Type} [DecidableEq K] (now : Nat) :
    ∀ fuel (c : MultiLru K V) (k : K) (curSize : Nat) (vs : List V) (cs : Nat)
      (c2 : MultiLru K V), MWf c →
      evictStaleLoop c k now curSize fuel = some (vs, cs, c2) →
      MWf c2 ∧ c2.cur_entries_num ≤ c.cur_entries_num ∧
      c2.max_entries = c.max_entries := by
  intro fuel
  induction fuel with
  | zero =>
    intro c k curSize vs cs c2 hwf heq
    exact absurd heq (by simp [evictStaleLoop])
  | succ fuel ih =>
    intro c k curSize vs cs c2 hwf heq
    rw [evictStaleLoop] at heq
    by_cases hz : c.cur_entries_num = 0
    · rw [if_pos hz] at heq
      simp only [Option.some.injEq, Prod.mk.injEq] at heq
      obtain ⟨-, -, hc2⟩ := heq
      subst hc2
      exact ⟨hwf, Nat.le_refl _, rfl⟩
    · rw [if_neg hz] at heq
      cases hfd : findDeque c.entry_map k with
      | none =>
        simp only [hfd] at heq
        exact Option.noConfusion heq
      | some d =>
        cases d with
        | nil =>
          simp only [hfd] at heq
          exact Option.noConfusion heq
        | cons e rest =>
          simp only [hfd] at heq
          by_cases hstale : c.timeout_millisec < now - e.timestamp
          · rw [if_pos hstale] at heq
            obtain ⟨hdwf, hdcur, hdpos, hdmax, _⟩ :=
              mwf_deleteFirstEntry c k e rest hfd hwf
            rcases hdel : c.deleteFirstEntry k with ⟨v, c1⟩
            rw [hdel] at heq hdwf hdcur hdmax
            simp only at hdwf hdcur hdmax heq
            cases hloop : evictStaleLoop c1 k now (curSize - 1) fuel with
            | none =>
              simp only [hloop] at heq
              exact Option.noConfusion heq
            | some r =>
              obtain ⟨vs1, cs1, c2x⟩ := r
              simp only [hloop, Option.some.injEq, Prod.mk.injEq] at heq
              obtain ⟨-, -, hc2⟩ := heq
              obtain ⟨h1, h2, h3⟩ := ih c1 k (curSize - 1) vs1 cs1 c2x hdwf hloop
              subst hc2
              exact ⟨h1, by omega, by rw [h3, hdmax]⟩
          · rw [if_neg hstale] at heq
            simp only [Option.some.injEq, Prod.mk.injEq] at heq
            obtain ⟨-, -, hc2⟩ := heq
            subst hc2
            exact ⟨hwf, Nat.le_refl _, rfl⟩

theorem mwf_getAndPop {K V : Type} [DecidableEq K] (c : MultiLru K V) (k : K)
    (now : Nat) (hwf : MWf c) :
    ∀ r, c.getAndPop k now = some r →
      MWf r.2 ∧ r.2.cur_entries_num ≤ c.cur_entries_num ∧
      r.2.max_entries = c.max_entries := by
  intro r heq
  rw [MultiLru.getAndPop] at heq
  cases hfd : findDeque c.entry_map k with
  | none =>
    simp only [hfd, Option.some.injEq] at heq
    rw [← heq]
    exact ⟨hwf, Nat.le_refl _, rfl⟩
  | some entries =>
    simp only [hfd] at heq
    by_cases ht : 0 < c.timeout_millisec
    · rw [if_pos ht] at heq
      cases hloop : evictStaleLoop c k now entries.length
          (c.cur_entries_num + 1) with
      | none =>
        simp only [hloop] at heq
        exact Option.noConfusion heq
      | some triple =>
        obtain ⟨evicted, curSize, c1⟩ := triple
        simp only [hloop] at heq
        obtain ⟨h1wf, h1cur, h1max⟩ := mwf_evictStaleLoop now
          (c.cur_entries_num + 1) c k entries.length evicted curSize c1 hwf hloop
        by_cases hcs : curSize = 0
        · rw [if_pos hcs] at heq
          simp only [Option.some.injEq] at heq
          rw [← heq]
          exact ⟨h1wf, h1cur, h1max⟩
        · rw [if_neg hcs] at heq
          cases hfd2 : findDeque c1.entry_map k with
          | none =>
            rw [MultiLru.deleteFirstEntry] at heq
            simp only [hfd2] at heq
            exact Option.noConfusion heq
          | some d2 =>
            cases d2 with
            | nil =>
              rw [MultiLru.deleteFirstEntry] at heq
              simp only [hfd2] at heq
              exact Option.noConfusion heq
            | cons e2 rest2 =>
              obtain ⟨hdwf, hdcur, hdpos, hdmax, _⟩ :=
                mwf_deleteFirstEntry c1 k e2 rest2 hfd2 h1wf
              rcases hdel : c1.deleteFirstEntry k with ⟨vopt, c2⟩
              rw [hdel] at heq hdwf hdcur hdmax
              simp only at hdwf hdcur hdmax
              have hdel2 := hdel
              rw [MultiLru.deleteFirstEntry] at hdel2
              simp only [hfd2, Prod.mk.injEq] at hdel2
              obtain ⟨hv1, -⟩ := hdel2
              subst hv1
              have heq2 : some ((evicted, some e2.value), c2) = some r := heq
              rw [← Option.some.inj heq2]
              refine ⟨hdwf, ?_, ?_⟩
              · show c2.cur_entries_num ≤ c.cur_entries_num
                omega
              · show c2.max_entries = c.max_entries
                rw [hdmax, h1max]
    · rw [if_neg ht] at heq
      cases entries with
      | nil =>
        rw [MultiLru.deleteFirstEntry] at heq
        simp only [hfd] at heq
        exact Option.noConfusion heq
      | cons e2 rest2 =>
        obtain ⟨hdwf, hdcur, hdpos, hdmax, _⟩ :=
          mwf_deleteFirstEntry c k e2 rest2 hfd hwf
        rcases hdel : c.deleteFirstEntry k with ⟨vopt, c2⟩
        rw [hdel] at heq hdwf hdcur hdmax
        simp only at hdwf hdcur hdmax
        have hdel2 := hdel
        rw [MultiLru.deleteFirstEntry] at hdel2
        simp only [hfd, Prod.mk.injEq] at hdel2
        obtain ⟨hv1, -⟩ := hdel2
        subst hv1
        have heq2 : some (([], some e2.value), c2) = some r := heq
        rw [← Option.some.inj heq2]
        refine ⟨hdwf, ?_, ?_⟩
        · show c2.cur_entries_num ≤ c.cur_entries_num
          omega
        · show c2.max_entries = c.max_entries
          rw [hdmax]

theorem mwf_runOps {K V : Type} [DecidableEq K] (ops : List (MOp K V))
    (c : MultiLru K V) (hwf : MWf c)
    (hb : 0 < c.max_entries → c.cur_entries_num ≤ c.max_entries) :
    MWf (c.runOps ops) ∧
    (0 < (c.runOps ops).max_entries →
      (c.runOps ops).cur_entries_num ≤ (c.runOps ops).max_entries) ∧
    (c.runOps ops).max_entries = c.max_entries := by
  induction ops generalizing c with
  | nil => exact ⟨hwf, hb, rfl⟩
  | cons op rest ih =>
    cases op with
    | put k v t =>
      obtain ⟨h1, h2, h3⟩ := mwf_put c k v t hwf hb
      have h1x : MWf (c.applyOp (.put k v t)) := h1
      have h2x : 0 < (c.applyOp (.put k v t)).max_entries →
          (c.applyOp (.put k v t)).cur_entries_num ≤
            (c.applyOp (.put k v t)).max_entries := h2
      have h3x : (c.applyOp (.put k v t)).max_entries = c.max_entries := h3
      obtain ⟨h4, h5, h6⟩ := ih (c.applyOp (.put k v t)) h1x h2x
      exact ⟨h4, h5, h6.trans h3x⟩
    | getAndPop k t =>
      cases hgp : c.getAndPop k t with
      | none =>
        have happ : c.applyOp (MOp.getAndPop k t) = c := by
          simp only [MultiLru.applyOp, hgp]
        obtain ⟨h4, h5, h6⟩ := ih (c.applyOp (.getAndPop k t))
          (by rw [happ]; exact hwf) (by rw [happ]; exact hb)
        exact ⟨h4, h5, h6.trans (by rw [happ])⟩
      | some r =>
        have happ : c.applyOp (MOp.getAndPop k t) = r.2 := by
          simp only [MultiLru.applyOp, hgp]
        obtain ⟨h1, h2, h3⟩ := mwf_getAndPop c k t hwf r hgp
        obtain ⟨h4, h5, h6⟩ := ih (c.applyOp (.getAndPop k t))
          (by rw [happ]; exact h1)
          (by rw [happ, h3]; intro hpos; exact Nat.le_trans h2 (hb hpos))
        exact ⟨h4, h5, h6.trans (by rw [happ]; exact h3)⟩

theorem sApplyOp_max {K V : Type} [DecidableEq K] (c : SharedLru K V)
    (op : SOp K V) : (c.applyOp op).max_entries = c.max_entries := by
  cases op with
  | put k v t =>
    show (c.put k v t).max_entries = c.max_entries
    rw [SharedLru.put]
    by_cases hcond : 0 < c.max_entries ∧
        c.max_entries < ((c.next_id, k) :: c.lru_list).length
    · rw [if_pos hcond]
      have hne : ((c.next_id, k) :: c.lru_list) ≠ [] := List.cons_ne_nil _ _
      rw [List.getLast?_eq_getLast _ hne]
    · rw [if_neg hcond]
  | get k t =>
    show ((c.get k t).2).max_entries = c.max_entries
    rw [SharedLru.get]
    cases hfind : findEntry c.entry_map k with
    | none => rfl
    | some e =>
      simp only
      by_cases hex : 0 < c.timeout_millisec ∧ c.timeout_millisec < t - e.timestamp
      · rw [if_pos hex]
      · rw [if_neg hex]
  | del k =>
    show ((c.del k).2).max_entries = c.max_entries
    rw [SharedLru.del]
    cases hfind : findEntry c.entry_map k with
    | none => rfl
    | some e => rfl
  | clear => rfl

theorem sRunOps_max {K V : Type} [DecidableEq K] (ops : List (SOp K V))
    (c : SharedLru K V) : (c.runOps ops).max_entries = c.max_entries := by
  induction ops generalizing c with
  | nil => rfl
  | cons op rest ih => exact (ih (c.applyOp op)).trans (sApplyOp_max c op)

/-- **C3.** Corrected capacity bound.  Starting from a freshly constructed
cache with a positive capacity, after *any* sequence of operations (puts,
lookups, deletes, clears) the number of entries never exceeds `max_entries`:
for `SharedLruCache` both the entry map and the key list stay within capacity
(Put, shared_lru_cache.hpp:49-64, drops the back key node whenever the list
outgrows the bound), and for `ExclusiveMultiLruCache` both the entry counter
and the actual number of stored entries stay within capacity (Put,
exclusive_multi_lru_cache.hpp:68-87, deletes the back node's first entry).
The original claim's "evicts the least-recently-used entry" is what the
correction drops: `DuckCache.C3_counterexample` shows a shared-cache put
sequence with capacity 2 in which the overflow eviction removes the key that
was re-put *most* recently (the overwritten key's orphan back node still
carries it), not the least-recently-used key. -/
theorem C3_capacity_bound {K V : Type} [DecidableEq K] (maxS ttlS maxM ttlM : Nat)
    (opsS : List (SOp K V)) (opsM : List (MOp K V))
    (hS : 0 < maxS) (hM : 0 < maxM) :
    ((SharedLru.mkEmpty K V maxS ttlS).runOps opsS).entry_map.length ≤ maxS ∧
    ((SharedLru.mkEmpty K V maxS ttlS).runOps opsS).lru_list.length ≤ maxS ∧
    ((MultiLru.mkEmpty K V maxM ttlM).runOps opsM).cur_entries_num ≤ maxM ∧
    (flattenPairs
      ((MultiLru.mkEmpty K V maxM ttlM).runOps opsM).entry_map).length ≤ maxM := by
  have hswf : SWf (SharedLru.mkEmpty K V maxS ttlS) := by
    refine ⟨?_, ?_, ?_, ?_⟩
    · show (([] : List (K × SEntry V)).map Prod.fst).Nodup
      simp
    · show (([] : List (Nat × K)).map Prod.fst).Nodup
      simp
    · intro n hn
      exact absurd hn (List.not_mem_nil n)
    · intro ke hke
      exact absurd hke (List.not_mem_nil ke)
  have hsb : SBound (SharedLru.mkEmpty K V maxS ttlS) := by
    intro _
    show ([] : List (Nat × K)).length ≤ maxS
    simp
  obtain ⟨hwfS, hbS⟩ := swf_runOps opsS (SharedLru.mkEmpty K V maxS ttlS) hswf hsb
  have hmaxS : ((SharedLru.mkEmpty K V maxS ttlS).runOps opsS).max_entries = maxS :=
    sRunOps_max opsS (SharedLru.mkEmpty K V maxS ttlS)
  have hlistS : ((SharedLru.mkEmpty K V maxS ttlS).runOps opsS).lru_list.length
      ≤ maxS := by
    have hbd := hbS (by rw [hmaxS]; exact hS)
    rw [hmaxS] at hbd
    exact hbd
  have hmapS : ((SharedLru.mkEmpty K V maxS ttlS).runOps opsS).entry_map.length
      ≤ maxS :=
    Nat.le_trans (swf_entry_le_list _ hwfS) hlistS
  have hmwf : MWf (MultiLru.mkEmpty K V maxM ttlM) := by
    refine ⟨rfl, ?_, ?_, ?_, ?_, ?_⟩
    · show List.Perm (flattenPairs ([] : List (K × List (MEntry V)))) []
      exact List.Perm.refl _
    · show (([] : List (Nat × K)).map Prod.fst).Nodup
      simp
    · intro n hn
      exact absurd hn (List.not_mem_nil n)
    · show (([] : List (K × List (MEntry V))).map Prod.fst).Nodup
      simp
    · intro kd hkd
      exact absurd hkd (List.not_mem_nil kd)
  obtain ⟨hwfM, hbM, hmaxM⟩ := mwf_runOps opsM (MultiLru.mkEmpty K V maxM ttlM)
    hmwf (fun _ => Nat.zero_le _)
  have hmaxM2 : ((MultiLru.mkEmpty K V maxM ttlM).runOps opsM).max_entries
      = maxM := hmaxM.trans rfl
  have hcurM : ((MultiLru.mkEmpty K V maxM ttlM).runOps opsM).cur_entries_num
      ≤ maxM := by
    have hbd := hbM (by rw [hmaxM2]; exact hM)
    rw [hmaxM2] at hbd
    exact hbd
  have hflatM : (flattenPairs
      ((MultiLru.mkEmpty K V maxM ttlM).runOps opsM).entry_map).length ≤ maxM := by
    rw [hwfM.2.1.length_eq, ← hwfM.1]
    exact hcurM
  exact ⟨hmapS, hlistS, hcurM, hflatM⟩

theorem C3_capacity_bound_witness :
    ((0 : Nat) < 2 ∧ (0 : Nat) < 3) ∧
    (((SharedLru.mkEmpty Nat Nat 2 0).runOps
        [SOp.put 1 10 0, SOp.put 2 20 1, SOp.put 1 30 2, SOp.get 2 3,
         SOp.put 3 40 4]).entry_map.length ≤ 2 ∧
      ((SharedLru.mkEmpty Nat Nat 2 0).runOps
        [SOp.put 1 10 0, SOp.put 2 20 1, SOp.put 1 30 2, SOp.get 2 3,
         SOp.put 3 40 4]).lru_list.length ≤ 2 ∧
      ((MultiLru.mkEmpty Nat Nat 3 0).runOps
        [MOp.put 1 10 0, MOp.put 1 20 1, MOp.put 2 30 2, MOp.put 1 40 3,
         MOp.getAndPop 1 4]).cur_entries_num ≤ 3 ∧
      (flattenPairs ((MultiLru.mkEmpty Nat Nat 3 0).runOps
        [MOp.put 1 10 0, MOp.put 1 20 1, MOp.put 2 30 2, MOp.put 1 40 3,
         MOp.getAndPop 1 4]).entry_map).length ≤ 3) :=
  ⟨⟨by decide, by decide⟩,
    C3_capacity_bound 2 0 3 0
      [SOp.put 1 10 0, SOp.put 2 20 1, SOp.put 1 30 2, SOp.get 2 3,
       SOp.put 3 40 4]
      [MOp.put 1 10 0, MOp.put 1 20 1, MOp.put 2 30 2, MOp.put 1 40 3,
       MOp.getAndPop 1 4]
      (by decide) (by decide)⟩

theorem gorStep_inv (fv : Nat) (g : GorState) (i : Nat) (hinv : GorInv fv g) :
    GorInv fv (gorStep fv g i) := by
  obtain ⟨h1, h2, h3, h4, h5, h6⟩ := hinv
  rw [gorStep]
  cases hti : g.threads[i]? with
  | none => exact ⟨h1, h2, h3, h4, h5, h6⟩
  | some t =>
    have hlen : i < g.threads.length := (List.getElem?_eq_some.mp hti).1
    cases t with
    | start =>
      cases hc : g.cacheVal with
      | some v =>
        refine ⟨h1, ?_, ?_, h4, ?_, ?_⟩
        · intro hte
          have hb := (h2 hte).2.1
          rw [hb] at hc
          simp at hc
        · intro v2 hv
          have hv2 : some v = some v2 := hv
          rw [← Option.some.inj hv2]
          exact h3 v hc
        · intro j v2 hj
          by_cases hij : j = i
          · subst hij
            rw [List.getElem?_set_self hlen] at hj
            simp only [Option.some.injEq, GorTState.done.injEq] at hj
            rw [← hj]
            exact h3 v hc
          · rw [List.getElem?_set_ne (Ne.symm hij)] at hj
            exact h5 j v2 hj
        · intro j k hj hk
          by_cases hij : j = i
          · subst hij
            rw [List.getElem?_set_self hlen] at hj
            simp at hj
          · rw [List.getElem?_set_ne (Ne.symm hij)] at hj
            by_cases hik : k = i
            · subst hik
              rw [List.getElem?_set_self hlen] at hk
              simp at hk
            · rw [List.getElem?_set_ne (Ne.symm hik)] at hk
              exact h6 j k hj hk
      | none =>
        by_cases htok : g.tokenExists = true
        · rw [if_pos htok]
          refine ⟨h1, ?_, ?_, h4, ?_, ?_⟩
          · intro hte
            rw [hte] at htok
            simp at htok
          · intro v hv
            have hv2 : (none : Option Nat) = some v := hv
            simp at hv2
          · intro j v2 hj
            by_cases hij : j = i
            · subst hij
              rw [List.getElem?_set_self hlen] at hj
              simp at hj
            · rw [List.getElem?_set_ne (Ne.symm hij)] at hj
              exact h5 j v2 hj
          · intro j k hj hk
            by_cases hij : j = i
            · subst hij
              rw [List.getElem?_set_self hlen] at hj
              simp at hj
            · rw [List.getElem?_set_ne (Ne.symm hij)] at hj
              by_cases hik : k = i
              · subst hik
                rw [List.getElem?_set_self hlen] at hk
                simp at hk
              · rw [List.getElem?_set_ne (Ne.symm hik)] at hk
                exact h6 j k hj hk
        · rw [if_neg htok]
          have htf : g.tokenExists = false := by
            revert htok
            cases g.tokenExists <;> simp
          obtain ⟨hf0, hcv, htv, hall⟩ := h2 htf
          refine ⟨?_, ?_, ?_, h4, ?_, ?_⟩
          · show g.fetchCount + 1 ≤ 1
            omega
          · intro hte
            have hte2 : true = false := hte
            simp at hte2
          · intro v hv
            have hv2 : (none : Option Nat) = some v := hv
            simp at hv2
          · intro j v2 hj
            by_cases hij : j = i
            · subst hij
              rw [List.getElem?_set_self hlen] at hj
              simp at hj
            · rw [List.getElem?_set_ne (Ne.symm hij)] at hj
              exact h5 j v2 hj
          · intro j k hj hk
            by_cases hij : j = i
            · by_cases hik : k = i
              · rw [hij, hik]
              · rw [List.getElem?_set_ne (Ne.symm hik)] at hk
                exact absurd (hall k _ hk) (by decide)
            · rw [List.getElem?_set_ne (Ne.symm hij)] at hj
              exact absurd (hall j _ hj) (by decide)
    | waiting =>
      cases htv : g.tokenVal with
      | none => exact ⟨h1, h2, h3, h4, h5, h6⟩
      | some v =>
        refine ⟨h1, ?_, h3, ?_, ?_, ?_⟩
        · intro hte
          have hb := (h2 hte).2.2.1
          rw [hb] at htv
          simp at htv
        · intro v2 hv
          have hv2 : some v = some v2 := hv
          rw [← Option.some.inj hv2]
          exact h4 v htv
        · intro j v2 hj
          by_cases hij : j = i
          · subst hij
            rw [List.getElem?_set_self hlen] at hj
            simp only [Option.some.injEq, GorTState.done.injEq] at hj
            rw [← hj]
            exact h4 v htv
          · rw [List.getElem?_set_ne (Ne.symm hij)] at hj
            exact h5 j v2 hj
        · intro j k hj hk
          by_cases hij : j = i
          · subst hij
            rw [List.getElem?_set_self hlen] at hj
            simp at hj
          · rw [List.getElem?_set_ne (Ne.symm hij)] at hj
            by_cases hik : k = i
            · subst hik
              rw [List.getElem?_set_self hlen] at hk
              simp at hk
            · rw [List.getElem?_set_ne (Ne.symm hik)] at hk
              exact h6 j k hj hk
    | producing =>
      refine ⟨h1, ?_, ?_, ?_, ?_, ?_⟩
      · intro hte
        obtain ⟨_, _, _, hall⟩ := h2 hte
        exact absurd (hall i _ hti) (by decide)
      · intro v hv
        have hv2 : some fv = some v := hv
        exact (Option.some.inj hv2).symm
      · intro v hv
        have hv2 : some fv = some v := hv
        exact (Option.some.inj hv2).symm
      · intro j v2 hj
        by_cases hij : j = i
        · subst hij
          rw [List.getElem?_set_self hlen] at hj
          simp only [Option.some.injEq, GorTState.done.injEq] at hj
          rw [← hj]
        · rw [List.getElem?_set_ne (Ne.symm hij)] at hj
          exact h5 j v2 hj
      · intro j k hj hk
        by_cases hij : j = i
        · subst hij
          rw [List.getElem?_set_self hlen] at hj
          simp at hj
        · rw [List.getElem?_set_ne (Ne.symm hij)] at hj
          by_cases hik : k = i
          · subst hik
            rw [List.getElem?_set_self hlen] at hk
            simp at hk
          · rw [List.getElem?_set_ne (Ne.symm hik)] at hk
            exact h6 j k hj hk
    | done v => exact ⟨h1, h2, h3, h4, h5, h6⟩

theorem gorBegin_inv (fv n : Nat) : GorInv fv (gorBegin n) := by
  refine ⟨Nat.zero_le 1, ?_, ?_, ?_, ?_, ?_⟩
  · intro _
    refine ⟨rfl, rfl, rfl, ?_⟩
    intro j t hj
    have hj2 : (List.replicate n GorTState.start)[j]? = some t := hj
    rw [List.getElem?_replicate] at hj2
    split at hj2
    · exact (Option.some.inj hj2).symm
    · simp at hj2
  · intro v hv
    have hv2 : (none : Option Nat) = some v := hv
    simp at hv2
  · intro v hv
    have hv2 : (none : Option Nat) = some v := hv
    simp at hv2
  · intro j v hj
    have hj2 : (List.replicate n GorTState.start)[j]? = some (.done v) := hj
    rw [List.getElem?_replicate] at hj2
    split at hj2
    · simp at hj2
    · simp at hj2
  · intro j k hj hk
    have hj2 : (List.replicate n GorTState.start)[j]? = some .producing := hj
    rw [List.getElem?_replicate] at hj2
    split at hj2
    · simp at hj2
    · simp at hj2

theorem gorRun_inv (fv : Nat) (sched : List Nat) (g : GorState)
    (hinv : GorInv fv g) : GorInv fv (gorRun fv g sched) := by
  induction sched generalizing g with
  | nil => exact hinv
  | cons i rest ih => exact ih (gorStep fv g i) (gorStep_inv fv g i hinv)

/-- **C8.** Amended at-most-once property.  In the `GetOrCreate` protocol
(shared_lru_cache.hpp:244-294) — the path actually taken by the glob cache and
the metadata cache — for any number of threads requesting the same absent key
and any interleaving, the factory is started at most once, at most one thread
is producing at any point, and every finished thread holds the produced value.
The original claim attributed this protection to the block-cache sub-requests,
which `DuckCache.C8_counterexample` refutes: the in-memory sub-request path
calls `Get` and then `Put` with no creation token, so two concurrent misses on
the same block key both execute the remote fetch (they still both return the
correct bytes). -/
theorem C8_get_or_create_at_most_once (n fv : Nat) (sched : List Nat) :
    (gorRun fv (gorBegin n) sched).fetchCount ≤ 1 ∧
    (∀ (j k : Nat), (gorRun fv (gorBegin n) sched).threads[j]? =
        some GorTState.producing →
      (gorRun fv (gorBegin n) sched).threads[k]? = some GorTState.producing →
      j = k) ∧
    (∀ (j : Nat) v, (gorRun fv (gorBegin n) sched).threads[j]? =
        some (GorTState.done v) → v = fv) := by
  obtain ⟨h1, _, _, _, h5, h6⟩ :=
    gorRun_inv fv sched (gorBegin n) (gorBegin_inv fv n)
  exact ⟨h1, h6, h5⟩

/-- **C8, counterexample.**  In the in-memory sub-request model
(in_memory_cache_reader.cpp:112-143) two threads miss on the same block key;
the schedule lets both run their `cache->Get` before either fetches, and both
then execute the remote read and the `cache->Put`: production happens twice
for the one key, refuting the claim's at-most-once guarantee (both threads do
still end with the correct bytes). -/
theorem C8_counterexample :
    (memRun 42 (memBegin 2) [0, 1, 0, 1]).fetchCount = 2 ∧
    (memRun 42 (memBegin 2) [0, 1, 0, 1]).threads =
      [.done 42, .done 42] := by
  decide

/-! ### C9: file-handle round trip through the exclusive cache

`CacheFileSystemHandle::~CacheFileSystemHandle` (cache_filesystem.cpp:20-41)
puts a read handle's inner file handle back into `file_handle_cache` under the
key `(path, flags | PARALLEL_ACCESS)`; `GetOrCreateFileHandleForRead`
(cache_filesystem.cpp:187-215) looks the same key up with `GetAndPop` and, on
a hit, wraps the popped handle.  Both ends are the already-modelled `MultiLru`
operations, with the inner `FileHandle` object as the stored value. -/

theorem not_mem_keys_of_findDeque_none {K V : Type} [DecidableEq K]
    (m : List (K × List (MEntry V))) (k : K) (h : findDeque m k = none) :
    ¬ k ∈ m.map Prod.fst := by
  induction m with
  | nil => simp
  | cons kd rest ih =>
    obtain ⟨k0, d0⟩ := kd
    rw [findDeque] at h
    by_cases hk : k0 = k
    · rw [if_pos hk] at h
      cases h
    · rw [if_neg hk] at h
      simp only [List.map_cons, List.mem_cons]
      rintro (h1 | h1)
      · exact hk h1.symm
      · exact ih h h1

theorem findDeque_appendDeque_absent {K V : Type} [DecidableEq K]
    (m : List (K × List (MEntry V))) (k : K) (e : MEntry V)
    (h : findDeque m k = none) :
    findDeque (appendDeque m k e) k = some [e] := by
  induction m with
  | nil =>
    rw [appendDeque, findDeque, if_pos rfl]
  | cons kd rest ih =>
    obtain ⟨k0, d0⟩ := kd
    rw [findDeque] at h
    by_cases hk : k0 = k
    · rw [if_pos hk] at h
      cases h
    · rw [if_neg hk] at h
      rw [appendDeque, if_neg hk, findDeque, if_neg hk]
      exact ih h

theorem findDeque_eraseDequeKey_ne {K V : Type} [DecidableEq K]
    (m : List (K × List (MEntry V))) (k2 k : K) (hne : k2 ≠ k) :
    findDeque (eraseDequeKey m k2) k = findDeque m k := by
  induction m with
  | nil => rfl
  | cons kd rest ih =>
    obtain ⟨k0, d0⟩ := kd
    by_cases hk : k0 = k2
    · rw [eraseDequeKey, if_pos hk, findDeque, if_neg (by rw [hk]; exact hne)]
    · rw [eraseDequeKey, if_neg hk]
      by_cases hk2 : k0 = k
      · rw [findDeque, if_pos hk2, findDeque, if_pos hk2]
      · rw [findDeque, if_neg hk2, findDeque, if_neg hk2]
        exact ih

theorem findDeque_updateDeque_ne {K V : Type} [DecidableEq K]
    (m : List (K × List (MEntry V))) (k2 : K) (d2 : List (MEntry V)) (k : K)
    (hne : k2 ≠ k) :
    findDeque (updateDeque m k2 d2) k = findDeque m k := by
  induction m with
  | nil => rfl
  | cons kd rest ih =>
    obtain ⟨k0, d0⟩ := kd
    by_cases hk : k0 = k2
    · rw [updateDeque, if_pos hk, findDeque, if_neg (by rw [hk]; exact hne),
        findDeque, if_neg (by rw [hk]; exact hne)]
    · rw [updateDeque, if_neg hk]
      by_cases hk2 : k0 = k
      · rw [findDeque, if_pos hk2, findDeque, if_pos hk2]
      · rw [findDeque, if_neg hk2, findDeque, if_neg hk2]
        exact ih

/-- Putting a handle back under a key with no cached entries leaves exactly
that one entry in the key's deque (the capacity eviction, if any, hits some
other key's oldest entry), and keeps the TTL configuration. -/
theorem put_fresh_key {K V : Type} [DecidableEq K] (c : MultiLru K V) (k : K)
    (h : V) (now : Nat) (hwf : MWf c)
    (habsent : findDeque c.entry_map k = none) :
    findDeque (c.put k h now).2.entry_map k = some [⟨h, now, c.next_id⟩] ∧
    (c.put k h now).2.timeout_millisec = c.timeout_millisec := by
  have hbase : findDeque (appendDeque c.entry_map k ⟨h, now, c.next_id⟩) k
      = some [⟨h, now, c.next_id⟩] :=
    findDeque_appendDeque_absent c.entry_map k _ habsent
  rw [MultiLru.put]
  simp only
  by_cases hcond : 0 < c.max_entries ∧ c.max_entries < c.cur_entries_num + 1
  · rw [if_pos hcond]
    cases hgl : ((c.next_id, k) :: c.lru_list).getLast? with
    | none => exact ⟨hbase, rfl⟩
    | some stale =>
      simp only
      cases hl : c.lru_list with
      | nil =>
        exfalso
        have hcur0 : c.cur_entries_num = 0 := by
          rw [hwf.1, hl]
          rfl
        obtain ⟨hc1, hc2⟩ := hcond
        rw [hcur0] at hc2
        omega
      | cons p l0 =>
        have hmem : stale ∈ c.lru_list := by
          rw [hl] at hgl
          rw [List.getLast?_cons_cons] at hgl
          rw [hl]
          exact List.mem_of_mem_getLast? hgl
        have hflat : (stale.1, stale.2) ∈ flattenPairs c.entry_map :=
          hwf.2.1.mem_iff.mpr hmem
        have hkne : stale.2 ≠ k := by
          intro heq
          exact not_mem_keys_of_findDeque_none c.entry_map k habsent
            (heq ▸ mem_keys_of_flatten c.entry_map stale.1 stale.2 hflat)
        rw [MultiLru.deleteFirstEntry]
        cases hfd : findDeque (appendDeque c.entry_map k ⟨h, now, c.next_id⟩)
            stale.2 with
        | none => exact ⟨hbase, rfl⟩
        | some d =>
          cases d with
          | nil => exact ⟨hbase, rfl⟩
          | cons e2 rest2 =>
            simp only
            refine ⟨?_, trivial⟩
            by_cases hre : rest2.isEmpty
            · rw [if_pos hre, findDeque_eraseDequeKey_ne _ _ _ hkne]
              exact hbase
            · rw [if_neg hre, findDeque_updateDeque_ne _ _ _ _ hkne]
              exact hbase
  · rw [if_neg hcond]
    exact ⟨hbase, rfl⟩

/-- **C9.** File-handle reuse round trip: starting from any well-formed
file-handle cache state with no cached handle under the key
`(path, flags | PARALLEL_ACCESS)`, destroying a read facade handle (which
puts its inner handle `h` back, cache_filesystem.cpp:20-41) and then opening
the same `(path, flags)` for reading (which pops with `GetAndPop`,
cache_filesystem.cpp:187-215) hands back exactly `h` as the new facade's
inner handle — provided the reopen happens within the cache's TTL (or the
TTL is 0, meaning never-expire), i.e. the entry was not evicted in between. -/
theorem C9_handle_round_trip {K V : Type} [DecidableEq K] (c : MultiLru K V)
    (k : K) (h : V) (now later : Nat) (hwf : MWf c)
    (habsent : findDeque c.entry_map k = none)
    (hfresh : c.timeout_millisec = 0 ∨ later - now ≤ c.timeout_millisec) :
    ((c.put k h now).2.getAndPop k later).map (fun r => r.1.2)
      = some (some h) := by
  obtain ⟨hk1, ht1⟩ := put_fresh_key c k h now hwf habsent
  rw [MultiLru.getAndPop, hk1]
  simp only
  by_cases htt : 0 < (c.put k h now).2.timeout_millisec
  · rw [if_pos htt]
    have hnotstale : ¬ (c.put k h now).2.timeout_millisec < later - now := by
      rcases hfresh with h0 | hle
      · rw [ht1, h0] at htt
        exact absurd htt (by decide)
      · rw [ht1]
        omega
    have hloop : evictStaleLoop (c.put k h now).2 k later
        [(⟨h, now, c.next_id⟩ : MEntry V)].length
        ((c.put k h now).2.cur_entries_num + 1)
        = some ([], [(⟨h, now, c.next_id⟩ : MEntry V)].length,
                (c.put k h now).2) := by
      rw [evictStaleLoop]
      by_cases hz : (c.put k h now).2.cur_entries_num = 0
      · rw [if_pos hz]
      · rw [if_neg hz]
        simp only [hk1]
        rw [if_neg hnotstale]
    rw [hloop]
    simp only
    rw [if_neg (by simp)]
    rw [MultiLru.deleteFirstEntry]
    simp only [hk1]
    rfl
  · rw [if_neg htt]
    rw [MultiLru.deleteFirstEntry]
    simp only [hk1]
    rfl

theorem C9_handle_round_trip_witness :
    (MWf (((MultiLru.mkEmpty Nat Nat 5 100).put 2 77 0).2) ∧
      findDeque ((((MultiLru.mkEmpty Nat Nat 5 100).put 2 77 0).2)).entry_map 1
        = none ∧
      ((((MultiLru.mkEmpty Nat Nat 5 100).put 2 77 0).2).timeout_millisec = 0 ∨
        50 - 10 ≤
          (((MultiLru.mkEmpty Nat Nat 5 100).put 2 77 0).2).timeout_millisec)) ∧
    ((((MultiLru.mkEmpty Nat Nat 5 100).put 2 77 0).2.put 1 42 10).2.getAndPop
        1 50).map (fun r => r.1.2) = some (some 42) :=
  ⟨⟨by unfold MWf; decide, by decide, by decide⟩,
    C9_handle_round_trip (((MultiLru.mkEmpty Nat Nat 5 100).put 2 77 0).2)
      1 42 10 50 (by unfold MWf; decide) (by decide) (by decide)⟩

/-- **C10.** `Close()` on a read facade changes nothing at all — the inner
handle stays open and the file-handle cache and closed-set are untouched —
while `Close()` on a write facade closes the inner handle without touching
the cache.  Release happens only at destruction: an enabled cache receives
the reset inner handle through `Put` (the closed-set grows only by a handle
that `Put` evicts); with the cache disabled, or for a write facade, the
destructor closes the inner handle and leaves the cache alone. -/
theorem C10_close_frame (inner : InnerHandle) (key now : Nat) (st : CfhState) :
    cfhClose true inner st = (inner, st) ∧
    (cfhClose false inner st).1.closed = true ∧
    (cfhClose false inner st).2.cache = st.cache ∧
    (cfhDestroy true key inner now
      { st with fileHandleCacheEnabled := true }).cache
      = (st.cache.put key inner.reset now).2 ∧
    (cfhDestroy true key inner now
      { st with fileHandleCacheEnabled := true }).closedIds
      = (match (st.cache.put key inner.reset now).1 with
         | some evicted => evicted.id :: st.closedIds
         | none => st.closedIds) ∧
    (cfhDestroy true key inner now
      { st with fileHandleCacheEnabled := false }).cache = st.cache ∧
    (cfhDestroy true key inner now
      { st with fileHandleCacheEnabled := false }).closedIds
      = inner.id :: st.closedIds ∧
    cfhDestroy false key inner now st
      = { st with closedIds := inner.id :: st.closedIds } := by
  refine ⟨rfl, rfl, rfl, ?_, ?_, rfl, rfl, rfl⟩
  · rcases hput : st.cache.put key inner.reset now with ⟨evicted, cache2⟩
    rw [cfhDestroy]
    simp only [hput]
    cases evicted <;> rfl
  · rcases hput : st.cache.put key inner.reset now with ⟨evicted, cache2⟩
    rw [cfhDestroy]
    simp only [hput]
    cases evicted <;> rfl


end DuckCache